import Mathlib

/-
Verification of the content-extraction pipeline of `substack_reader.py`.

Strings are modelled as `List Char`.  The Python code works by regular
expression scans over the page text; every pattern the code uses is modelled
here by an explicit scanner that is faithful to the leftmost / lazy / greedy
semantics of that concrete pattern.  Recursions that advance by more than one
character use an explicit fuel argument equal to the input length, so that
every definition is executable and computes by `decide`.
-/

set_option maxRecDepth 100000

namespace SubstackReader

/-- Python's `\s` character class, restricted to the ASCII whitespace
characters (space, tab, newline, carriage return, vertical tab, form feed). -/
def isPySpace (c : Char) : Bool :=
  c = ' ' || c = '\t' || c = '\n' || c = '\r' || c = Char.ofNat 11 || c = Char.ofNat 12

/-! ### Text cleaner: `clean_html_text` (source lines 47-66) -/

/-- Scan for the first `'>'`; on success return the remainder after it.
All skipped characters are not `'>'`. -/
def scanGt : List Char → Option (List Char)
  | [] => none
  | c :: r => if c = '>' then some r else scanGt r

/-- Given the text following a `'<'`, find the end of a tag per the pattern
`<[^>]+>`: at least one non-`'>'` character followed by `'>'`.  Returns the
remainder after the closing `'>'`. -/
def findTagEnd : List Char → Option (List Char)
  | [] => none
  | c :: r => if c = '>' then none else scanGt r

/-- Fuelled worker for `re.sub(r'<[^>]+>', ' ', text)`: each leftmost
non-overlapping tag match is replaced by one space. -/
def stFuel : Nat → List Char → List Char
  | 0, l => l
  | _ + 1, [] => []
  | n + 1, c :: rest =>
    if c = '<' then
      match findTagEnd rest with
      | some rest2 => ' ' :: stFuel n rest2
      | none => '<' :: stFuel n rest
    else c :: stFuel n rest

/-- `re.sub(r'<[^>]+>', ' ', text)` — source line 50. -/
def stripTags (l : List Char) : List Char := stFuel l.length l

/-- Fuelled worker for `re.sub` with a literal pattern `p :: ps`:
leftmost non-overlapping occurrences are replaced by `rep`. -/
def rsubFuel (p : Char) (ps rep : List Char) : Nat → List Char → List Char
  | 0, l => l
  | _ + 1, [] => []
  | n + 1, c :: rest =>
    if c = p && ps.isPrefixOf rest then
      rep ++ rsubFuel p ps rep n (rest.drop ps.length)
    else c :: rsubFuel p ps rep n rest

/-- `re.sub` with a literal (regex-metacharacter-free) pattern. -/
def pyReplace (pat rep l : List Char) : List Char :=
  match pat with
  | [] => l
  | p :: ps => rsubFuel p ps rep l.length l

/-- The fixed entity substitutions of `clean_html_text` — source lines 53-58,
applied in source order. -/
def decodeEntities (l : List Char) : List Char :=
  pyReplace "&#39;".data ['\''] <|
    pyReplace "&quot;".data ['"'] <|
      pyReplace "&gt;".data ['>'] <|
        pyReplace "&lt;".data ['<'] <|
          pyReplace "&amp;".data ['&'] <|
            pyReplace "&nbsp;".data [' '] l

/-- `re.sub(r'\s+', ' ', text)` — source line 61: every maximal run of
whitespace becomes a single space. -/
def collapseWs : List Char → List Char
  | [] => []
  | [c] => if isPySpace c then [' '] else [c]
  | c :: d :: rest =>
    if isPySpace c then
      if isPySpace d then collapseWs (d :: rest)
      else ' ' :: collapseWs (d :: rest)
    else c :: collapseWs (d :: rest)

/-- `re.sub(r'\n+', '\n', text)` — source line 64: every maximal run of
newlines becomes a single newline. -/
def collapseNl : List Char → List Char
  | [] => []
  | [c] => [c]
  | c :: d :: rest =>
    if c = '\n' && d = '\n' then collapseNl (d :: rest)
    else c :: collapseNl (d :: rest)

/-- Python `str.strip()` restricted to the modelled whitespace class. -/
def pyStrip (l : List Char) : List Char :=
  ((l.dropWhile isPySpace).reverse.dropWhile isPySpace).reverse

/-- `clean_html_text` — source lines 47-66. -/
def clean_html_text (l : List Char) : List Char :=
  pyStrip (collapseNl (collapseWs (decodeEntities (stripTags l))))

/-! ### Generic scanner for the patterns `name[^>]*?>(.*?)close`

The code uses `re.findall` / `re.search` / `re.sub` with patterns of the
shape `<tag[^>]*?>(.*?)</tag>`.  A match attempt at a position consists of
the literal opening, the lazy run to the first `'>'`, and the lazy capture
up to the first occurrence of the closing literal. -/

/-- Strip a literal prefix, returning the remainder after it. -/
def stripPre : List Char → List Char → Option (List Char)
  | [], l => some l
  | _ :: _, [] => none
  | p :: ps, c :: l => if p = c then stripPre ps l else none

/-- Split at the first occurrence of the literal `pat`: the parts strictly
before and strictly after the occurrence. -/
def splitAtFirst (pat : List Char) : List Char → Option (List Char × List Char)
  | [] => if pat.isEmpty then some ([], []) else none
  | c :: rest =>
    if pat.isPrefixOf (c :: rest) then some ([], (c :: rest).drop pat.length)
    else
      match splitAtFirst pat rest with
      | some (pre, post) => some (c :: pre, post)
      | none => none

/-- One attempted match of `op` `[^>]*?>` `(.*?)` `cl` at the current
position.  Returns the captured group and the remainder after the match. -/
def matchAt (op cl l : List Char) : Option (List Char × List Char) :=
  (stripPre op l).bind fun r1 => (scanGt r1).bind fun r2 => splitAtFirst cl r2

/-- Fuelled worker for `re.findall`: leftmost matches, scanning resumes after
each match. -/
def faFuel (op cl : List Char) : Nat → List Char → List (List Char)
  | 0, _ => []
  | _ + 1, [] => []
  | n + 1, c :: rest =>
    match matchAt op cl (c :: rest) with
    | some (content, after) => content :: faFuel op cl n after
    | none => faFuel op cl n rest

/-- `re.findall(f'{op}[^>]*?>(.*?){cl}', l, re.DOTALL)`. -/
def findAll (op cl l : List Char) : List (List Char) := faFuel op cl l.length l

/-- Fuelled worker for `re.sub(..., '', ...)` over the same match shape. -/
def raFuel (op cl : List Char) : Nat → List Char → List Char
  | 0, l => l
  | _ + 1, [] => []
  | n + 1, c :: rest =>
    match matchAt op cl (c :: rest) with
    | some (_, after) => raFuel op cl n after
    | none => c :: raFuel op cl n rest

/-- `re.sub(f'{op}[^>]*?>.*?{cl}', '', l, flags=re.DOTALL)` — whole matches
are removed. -/
def removeAll (op cl l : List Char) : List Char := raFuel op cl l.length l

/-- `re.search(f'{op}[^>]*?>(.*?){cl}', l, re.DOTALL)`: the capture of the
leftmost match, if any. -/
def searchFirst (op cl : List Char) : List Char → Option (List Char)
  | [] => none
  | c :: rest =>
    match matchAt op cl (c :: rest) with
    | some (content, _) => some content
    | none => searchFirst op cl rest

/-! ### Block extractor — source lines 106-133 -/

/-- `'#' * n`. -/
def hashMark (n : Nat) : List Char := List.replicate n '#'

/-- The literal bullet characters of source line 133 (the file stores the
three characters U+00E2, U+20AC, U+00A2 followed by a space). -/
def bulletMark : List Char := [Char.ofNat 0xE2, Char.ofNat 0x20AC, Char.ofNat 0xA2, ' ']

/-- Opening literal `<h{i}` of the heading pattern. -/
def hOpen (i : Nat) : List Char := ['<', 'h', Char.ofNat (48 + i)]

/-- Closing literal `</h{i}>` of the heading pattern. -/
def hClose (i : Nat) : List Char := ['<', '/', 'h', Char.ofNat (48 + i), '>']

/-- Source lines 116-119: for `i` in `range(2, 7)`, all `<h{i}>` matches, each
rendered as `(i-1)` hash marks, a space, and the cleaned text. -/
def headingBlocks (body : List Char) : List (List Char) :=
  (List.range' 2 5).flatMap fun i =>
    (findAll (hOpen i) (hClose i) body).map fun h =>
      hashMark (i - 1) ++ ' ' :: clean_html_text h

/-- Source lines 122-126: paragraph matches, cleaned, empty ones dropped. -/
def paragraphBlocks (body : List Char) : List (List Char) :=
  (findAll "<p".data "</p>".data body).filterMap fun p =>
    let c := clean_html_text p
    if c = [] then none else some c

/-- Source lines 129-133: list-item matches, cleaned, empty ones dropped,
each prefixed by the bullet marker. -/
def listItemBlocks (body : List Char) : List (List Char) :=
  (findAll "<li".data "</li>".data body).filterMap fun li =>
    let c := clean_html_text li
    if c = [] then none else some (bulletMark ++ c)

/-- Source lines 107-110: wholesale removal of script, style, svg and figure
elements, in source order. -/
def preRemove (body : List Char) : List Char :=
  removeAll "<figure".data "</figure>".data <|
    removeAll "<svg".data "</svg>".data <|
      removeAll "<style".data "</style>".data <|
        removeAll "<script".data "</script>".data body

/-- The block extractor applied to a located body fragment — source lines
106-133: pre-removal, then headings grouped by level, then paragraphs, then
list items. -/
def extractBlocks (body : List Char) : List (List Char) :=
  headingBlocks (preRemove body) ++ paragraphBlocks (preRemove body) ++
    listItemBlocks (preRemove body)

/-! ### Fragment locator — source lines 81-101 -/

/-- One attempt of the sub-pattern `datetime="([^"]+)"` at the current
position inside a `<time` tag. -/
def dtTry (l : List Char) : Option (List Char) :=
  if "datetime=\"".data.isPrefixOf l then
    let r := l.drop 10
    let cap := r.takeWhile (fun x => x ≠ '"')
    if cap.isEmpty then none
    else if (r.drop cap.length).head? = some '"' then some cap else none
  else none

/-- Lazy scan `[^>]*?datetime="([^"]+)"`: try the attribute at each position,
expanding only over non-`'>'` characters. -/
def dtScan : List Char → Option (List Char)
  | [] => none
  | c :: rest =>
    match dtTry (c :: rest) with
    | some v => some v
    | none => if c = '>' then none else dtScan rest

/-- One attempted match of `<time[^>]*?datetime="([^"]+)"` at a position. -/
def timeAt (l : List Char) : Option (List Char) :=
  (stripPre "<time".data l).bind dtScan

/-- `re.search(r'<time[^>]*?datetime="([^"]+)"', page)` — source lines 89-90. -/
def searchDatetime : List Char → Option (List Char)
  | [] => none
  | c :: rest =>
    match timeAt (c :: rest) with
    | some v => some v
    | none => searchDatetime rest

/-- `[^"]*?comments` — scan for the literal before the next `'"'`. -/
def hasCommentsBeforeQuote : List Char → Bool
  | [] => false
  | c :: rest =>
    if "comments".data.isPrefixOf (c :: rest) then true
    else if c = '"' then false else hasCommentsBeforeQuote rest

/-- The terminator group of the body pattern:
`\s*<(footer|div\s+class="[^"]*?comments)` applied to the text following a
candidate `</div>`. -/
def closerOK (m : List Char) : Bool :=
  match m.dropWhile isPySpace with
  | '<' :: m2 =>
    "footer".data.isPrefixOf m2 ||
      ("div".data.isPrefixOf m2 &&
        (let m3 := m2.drop 3
         let ws := m3.takeWhile isPySpace
         !ws.isEmpty && "class=\"".data.isPrefixOf (m3.drop ws.length) &&
           hasCommentsBeforeQuote (m3.drop (ws.length + 7))))
  | _ => false

/-- Lazy capture `(.*?)</div>` followed by the terminator group: the shortest
prefix whose following `</div>` is accepted by `closerOK`. -/
def scanContent : List Char → Option (List Char)
  | [] => none
  | c :: rest =>
    if "</div>".data.isPrefixOf (c :: rest) && closerOK ((c :: rest).drop 6) then some []
    else
      match scanContent rest with
      | some cont => some (c :: cont)
      | none => none

/-- After `class="[^"]*?body` has matched: `[^"]*?"` (to the first quote),
then `[^>]*?>` (to the first `'>'`), then the content capture. -/
def afterBody (r2 : List Char) : Option (List Char) :=
  match splitAtFirst ['"'] r2 with
  | none => none
  | some (_, r3) =>
    match scanGt r3 with
    | none => none
    | some r4 => scanContent r4

/-- Lazy scan `[^"]*?body` inside the class attribute value, backtracking to
later `body` occurrences when the continuation fails. -/
def scanBody : List Char → Option (List Char)
  | [] => none
  | c :: rest =>
    match (if "body".data.isPrefixOf (c :: rest) then afterBody ((c :: rest).drop 4) else none) with
    | some res => some res
    | none => if c = '"' then none else scanBody rest

/-- Lazy scan `[^>]*?class="` after `<div`, backtracking to later `class="`
occurrences when the continuation fails. -/
def scanClass : List Char → Option (List Char)
  | [] => none
  | c :: rest =>
    match (if "class=\"".data.isPrefixOf (c :: rest) then scanBody ((c :: rest).drop 7) else none) with
    | some res => some res
    | none => if c = '>' then none else scanClass rest

/-- One attempted match of the primary body pattern (source line 95)
`<div[^>]*?class="[^"]*?body[^"]*?"[^>]*?>(.*?)</div>\s*<(footer|div\s+class="[^"]*?comments)`
at a position; returns the captured body fragment. -/
def divAt (l : List Char) : Option (List Char) :=
  match stripPre "<div".data l with
  | none => none
  | some r0 => scanClass r0

/-- `re.search` of the primary body pattern — source lines 95-96. -/
def divBodySearch : List Char → Option (List Char)
  | [] => none
  | c :: rest =>
    match divAt (c :: rest) with
    | some content => some content
    | none => divBodySearch rest

/-- Sentinel title — source line 83. -/
def unknownTitle : List Char := "Unknown Title".data

/-- Fixed author — source line 86. -/
def authorName : List Char := "Adam Mancini".data

/-- Body-extraction failure placeholder — source line 141. -/
def failContent : List Char := "Could not extract article content.".data

/-- Title extraction — source lines 82-83: cleaned capture of the first
`<h1[^>]*?>(.*?)</h1>` match, else the sentinel. -/
def titleOf (page : List Char) : List Char :=
  match searchFirst "<h1".data "</h1>".data page with
  | some t => clean_html_text t
  | none => unknownTitle

/-- Date extraction — source lines 89-91: first `datetime` value, else empty. -/
def dateOf (page : List Char) : List Char :=
  (searchDatetime page).getD []

/-- Body fragment location — source lines 95-101: primary `<div class=*body*>`
strategy, falling back to `<article[^>]*?>(.*?)</article>`. -/
def bodyFragmentOf (page : List Char) : Option (List Char) :=
  (divBodySearch page).or (searchFirst "<article".data "</article>".data page)

/-! ### Article assembler — source lines 68-151 -/

/-- Fuelled worker for `re.sub(r'\n{3,}', '\n\n', text)`: maximal runs of
three or more newlines become exactly two. -/
def c3Fuel : Nat → List Char → List Char
  | 0, l => l
  | _ + 1, [] => []
  | n + 1, c :: rest =>
    if c = '\n' && "\n\n".data.isPrefixOf rest then
      '\n' :: '\n' :: c3Fuel n (rest.dropWhile (fun x => x = '\n'))
    else c :: c3Fuel n rest

/-- `re.sub(r'\n{3,}', '\n\n', text)` — source line 139. -/
def collapse3 (l : List Char) : List Char := c3Fuel l.length l

/-- Source lines 136-139: join the blocks with blank lines, then normalize
newline runs. -/
def renderContent (frag : List Char) : List Char :=
  collapse3 (List.intercalate "\n\n".data (extractBlocks frag))

/-- The record produced by a successful article extraction. -/
structure ArticleData where
  title : List Char
  author : List Char
  date : List Char
  content : List Char
deriving DecidableEq

/-- The record assembled from a successfully fetched page — source lines
82-148. -/
def articleOfPage (page : List Char) : ArticleData :=
  { title := titleOf page
    author := authorName
    date := dateOf page
    content := (bodyFragmentOf page).elim failContent renderContent }

/-- `fetch_substack_article_text` — source lines 68-151.  The HTTP
collaborator is the explicit environment `env`; `env url = none` models a
request exception or error status (the `except` path returning `None`). -/
def fetch_substack_article_text (env : List Char → Option (List Char))
    (url : List Char) : Option ArticleData :=
  (env url).map articleOfPage

/-! ### Index scanner — source lines 153-208 -/

/-- The publication origin — source line 15. -/
def tradeCompanionUrl : List Char := "https://tradecompanion.substack.com".data

/-- The literal part of the post-URL pattern — source line 171. -/
def postUrlLit : List Char := "https://tradecompanion.substack.com/p/".data

/-- The excluded article slug — source line 175. -/
def excludedSlug : List Char := "my-trade-methodology-fundamentals".data

/-- The lookahead class `[\s"']` of the URL pattern. -/
def isUrlStop (c : Char) : Bool := isPySpace c || c = '"' || c = '\''

/-- The complement of the slug-run class `[^/\s"']`. -/
def isSlugStop (c : Char) : Bool := c = '/' || isPySpace c || c = '"' || c = '\''

/-- One attempted match of
`https://tradecompanion\.substack\.com/p/[^/\s"\']+(?=[\s"\'])` at a
position: the literal, a maximal nonempty run of slug characters, and the
unconsumed lookahead.  Returns the match and the remainder (which still
starts with the lookahead character). -/
def urlTry (l : List Char) : Option (List Char × List Char) :=
  (stripPre postUrlLit l).bind fun r =>
    let run := r.takeWhile (fun c => !isSlugStop c)
    let rest := r.dropWhile (fun c => !isSlugStop c)
    if run.isEmpty then none
    else rest.head?.bind fun c =>
      if isUrlStop c then some (postUrlLit ++ run, rest) else none

/-- Fuelled worker for `re.findall` of the URL pattern. -/
def usFuel : Nat → List Char → List (List Char)
  | 0, _ => []
  | _ + 1, [] => []
  | n + 1, c :: rest =>
    match urlTry (c :: rest) with
    | some (m, after) => m :: usFuel n after
    | none => usFuel n rest

/-- `re.findall(url_pattern, page)` — source line 172. -/
def urlScan (l : List Char) : List (List Char) := usFuel l.length l

/-- Python's `in` substring test. -/
def containsSub (pat : List Char) : List Char → Bool
  | [] => pat.isEmpty
  | c :: rest => pat.isPrefixOf (c :: rest) || containsSub pat rest

/-- The URL filter — source lines 179-180. -/
def urlFilter (u : List Char) : Bool :=
  tradeCompanionUrl.isPrefixOf u && containsSub "/p/".data u &&
    !containsSub excludedSlug u

/-- The de-duplication loop — source lines 187-190: append each URL not
already collected. -/
def uniqAcc (acc : List (List Char)) : List (List Char) → List (List Char)
  | [] => acc
  | u :: rest => if u ∈ acc then uniqAcc acc rest else uniqAcc (acc ++ [u]) rest

/-- `url.split('/')[-1]` — the final path segment. -/
def lastSeg (u : List Char) : List Char :=
  (u.reverse.takeWhile (fun c => c ≠ '/')).reverse

/-- Python `str.title()` restricted to ASCII alphabetic characters: the first
letter of each letter run is upper-cased, later letters lower-cased. -/
def pyTitleAux : Bool → List Char → List Char
  | _, [] => []
  | prevAlpha, c :: rest =>
    if c.isAlpha then
      (if prevAlpha then c.toLower else c.toUpper) :: pyTitleAux true rest
    else c :: pyTitleAux false rest

/-- `slug.replace('-', ' ').title()` — source line 196. -/
def slugTitle (u : List Char) : List Char :=
  pyTitleAux false ((lastSeg u).map (fun c => if c = '-' then ' ' else c))

/-- The summary record built per URL — source lines 198-203. -/
structure ArticleSummary where
  title : List Char
  url : List Char
  date : List Char
  preview : List Char
deriving DecidableEq

/-- Source lines 193-203. -/
def mkSummary (u : List Char) : ArticleSummary :=
  { title := slugTitle u, url := u, date := [], preview := [] }

/-- The pure part of `fetch_trade_companion_articles` applied to a fetched
index page — source lines 167-205. -/
def tradeArticlesOf (page : List Char) : List ArticleSummary :=
  (uniqAcc [] ((urlScan page).filter urlFilter)).map mkSummary

/-- `fetch_trade_companion_articles` — source lines 153-208; a failed fetch
yields the empty list. -/
def fetch_trade_companion_articles (env : List Char → Option (List Char)) :
    List ArticleSummary :=
  match env tradeCompanionUrl with
  | none => []
  | some page => tradeArticlesOf page

/-! ### Top-level tool — source lines 210-239 -/

/-- Source line 219. -/
def msgUnavailable : List Char :=
  "Failed to fetch articles from Trade Companion. The service might be temporarily unavailable.".data

/-- Source line 227. -/
def msgLatestFailed : List Char :=
  "Failed to fetch the latest article. The article might not be accessible.".data

/-- The formatted article document — source lines 230-237. -/
def formatArticle (d : ArticleData) (url : List Char) : List Char :=
  "\nTitle: ".data ++ d.title ++ "\nAuthor: ".data ++ d.author ++
    "\nPublished: ".data ++ d.date ++ "\nURL: ".data ++ url ++
    "\n\n".data ++ d.content ++ "\n".data

/-- `get_latest_trade_companion_adam_mancini_article` — source lines 210-239. -/
def get_latest_trade_companion_adam_mancini_article
    (env : List Char → Option (List Char)) : List Char :=
  match fetch_trade_companion_articles env with
  | [] => msgUnavailable
  | a :: _ =>
    (fetch_substack_article_text env a.url).elim msgLatestFailed
      fun d => formatArticle d a.url

/-! ### Element-level test harness

To state ordering properties of `extractBlocks` against document order we
render explicit element lists into markup.  An element is one of the tags
the extractor scans for, with a text that contains no `'<'` (so that the
rendered fragment is a flat sequence of well-formed sibling elements). -/

/-- The tags the block extractor scans for. -/
inductive Tag where
  | h2 | h3 | h4 | h5 | h6 | p | li
deriving DecidableEq

/-- The tag-name characters. -/
def tagStr : Tag → List Char
  | .h2 => ['h', '2']
  | .h3 => ['h', '3']
  | .h4 => ['h', '4']
  | .h5 => ['h', '5']
  | .h6 => ['h', '6']
  | .p => ['p']
  | .li => ['l', 'i']

/-- One document element: a tag and its inner text. -/
structure Elem where
  t : Tag
  txt : List Char
deriving DecidableEq

/-- `<tag>`. -/
def openTag (t : Tag) : List Char := '<' :: tagStr t ++ ['>']

/-- `</tag>`. -/
def closeTag (t : Tag) : List Char := '<' :: '/' :: tagStr t ++ ['>']

/-- Render an element as markup. -/
def render (e : Elem) : List Char := openTag e.t ++ e.txt ++ closeTag e.t

/-- Render a document: a flat sequence of sibling elements. -/
def renderFrag : List Elem → List Char
  | [] => []
  | e :: es => render e ++ renderFrag es

/-- Texts contain no `'<'`, so the rendered fragment has exactly the
elements' tags as markup. -/
def okFrag (es : List Elem) : Prop := ∀ e ∈ es, '<' ∉ e.txt

/-- The heading rendering of the extractor for level-`i` headings applied to
an element's text. -/
def hBlockOf (n : Nat) (e : Elem) : List Char :=
  hashMark n ++ ' ' :: clean_html_text e.txt

/-- The block sequence the specification describes for a document: all
level-2 headings, then level 3 … level 6 (grouped by level), then all
paragraphs in document order (empty-after-cleaning ones dropped), then all
list items in document order (empty ones dropped, bullet-prefixed). -/
def specBlocks (es : List Elem) : List (List Char) :=
  ((es.filter (fun e => e.t == Tag.h2)).map (hBlockOf 1)) ++
    ((es.filter (fun e => e.t == Tag.h3)).map (hBlockOf 2)) ++
      ((es.filter (fun e => e.t == Tag.h4)).map (hBlockOf 3)) ++
        ((es.filter (fun e => e.t == Tag.h5)).map (hBlockOf 4)) ++
          ((es.filter (fun e => e.t == Tag.h6)).map (hBlockOf 5)) ++
            ((es.filter (fun e => e.t == Tag.p)).filterMap fun e =>
              let c := clean_html_text e.txt
              if c = [] then none else some c) ++
              ((es.filter (fun e => e.t == Tag.li)).filterMap fun e =>
                let c := clean_html_text e.txt
                if c = [] then none else some (bulletMark ++ c))

/-- The open-pattern part of the recurring pattern shape, for a tag. -/
def opOf (t : Tag) : List Char := '<' :: tagStr t

/-- The closing literal of the recurring pattern shape, for a tag. -/
def clOf (t : Tag) : List Char := closeTag t

/-- Worker of the de-duplication loop, relative to an already-collected
accumulator (used to state lemmas about `uniqAcc`). -/
def uniqPart (acc : List (List Char)) : List (List Char) → List (List Char)
  | [] => []
  | u :: rest => if u ∈ acc then uniqPart acc rest else u :: uniqPart (acc ++ [u]) rest

/-- Index of the first occurrence of `x`, used to state first-seen ordering. -/
def firstIdx (x : List Char) : List (List Char) → Nat
  | [] => 0
  | u :: rest => if u = x then 0 else firstIdx x rest + 1

/-! ## Lemmas about the primitive scanners -/

theorem isPrefixOf_eq_iff {l1 l2 : List Char} :
    l1.isPrefixOf l2 = true ↔ l1 <+: l2 :=
  List.isPrefixOf_iff_prefix

theorem stripPre_eq_some {ps l r : List Char} (h : stripPre ps l = some r) :
    l = ps ++ r := by
  induction ps generalizing l with
  | nil => simpa [stripPre] using h
  | cons p ps ih =>
    cases l with
    | nil => simp [stripPre] at h
    | cons c l =>
      by_cases hpc : p = c
      · subst hpc
        simp only [stripPre, if_pos rfl] at h
        simpa using ih h
      · simp [stripPre, hpc] at h

theorem stripPre_self (ps r : List Char) : stripPre ps (ps ++ r) = some r := by
  induction ps with
  | nil => rfl
  | cons p ps ih => simpa [stripPre] using ih

theorem stripPre_eq_none_of_no_match {ps l : List Char} (h : ¬ ps <+: l) :
    stripPre ps l = none := by
  cases hsp : stripPre ps l with
  | none => rfl
  | some r => exact absurd ⟨r, (stripPre_eq_some hsp).symm⟩ h

theorem scanGt_append {a r : List Char} (h : '>' ∉ a) :
    scanGt (a ++ '>' :: r) = some r := by
  induction a with
  | nil => simp [scanGt]
  | cons c a ih =>
    have hc : c ≠ '>' := fun hc => h (hc ▸ List.mem_cons_self c a)
    simp only [List.cons_append, scanGt, if_neg hc]
    exact ih fun hm => h (List.mem_cons_of_mem c hm)

theorem scanGt_eq_some {l r : List Char} (h : scanGt l = some r) :
    ∃ a, l = a ++ '>' :: r ∧ '>' ∉ a := by
  induction l with
  | nil => simp [scanGt] at h
  | cons c l ih =>
    by_cases hc : c = '>'
    · subst hc
      simp [scanGt] at h
      exact ⟨[], by simp [h], by simp⟩
    · simp only [scanGt, if_neg hc] at h
      obtain ⟨a, ha, hna⟩ := ih h
      refine ⟨c :: a, by simp [ha], ?_⟩
      intro hm
      rcases List.mem_cons.1 hm with h1 | h1
      · exact hc h1.symm
      · exact hna h1

theorem splitAtFirst_eq_some {pat l pre post : List Char}
    (h : splitAtFirst pat l = some (pre, post)) : l = pre ++ pat ++ post := by
  induction l generalizing pre with
  | nil =>
    by_cases hp : pat.isEmpty
    · simp only [splitAtFirst, if_pos hp, Option.some.injEq, Prod.mk.injEq] at h
      obtain ⟨rfl, rfl⟩ := h
      simp [List.isEmpty_iff.1 hp]
    · simp [splitAtFirst, hp] at h
  | cons c rest ih =>
    by_cases hp : pat.isPrefixOf (c :: rest)
    · rw [splitAtFirst, if_pos hp] at h
      obtain ⟨t, ht⟩ := isPrefixOf_eq_iff.1 hp
      simp only [Option.some.injEq, Prod.mk.injEq] at h
      obtain ⟨rfl, rfl⟩ := h
      rw [← ht, List.nil_append, List.drop_left]
    · rw [splitAtFirst, if_neg hp] at h
      cases hsp : splitAtFirst pat rest with
      | none => rw [hsp] at h; simp at h
      | some pr =>
        obtain ⟨pre', post'⟩ := pr
        rw [hsp] at h
        simp only [Option.some.injEq, Prod.mk.injEq] at h
        obtain ⟨rfl, rfl⟩ := h
        simpa using ih hsp

theorem splitAtFirst_boundary {k : Char} {ks pre post : List Char}
    (h : ∀ c ∈ pre, c ≠ k) :
    splitAtFirst (k :: ks) (pre ++ (k :: ks) ++ post) = some (pre, post) := by
  induction pre with
  | nil =>
    have hpre : (k :: ks).isPrefixOf ((k :: ks) ++ post) :=
      isPrefixOf_eq_iff.2 ⟨post, rfl⟩
    have hdrop : List.drop (k :: ks).length ((k :: ks) ++ post) = post :=
      List.drop_left _ _
    simp only [List.cons_append] at hpre hdrop
    simp only [List.nil_append, List.cons_append]
    simp only [splitAtFirst, List.append_eq, if_pos hpre, hdrop]
  | cons c pre ih =>
    have hck : c ≠ k := h c (List.mem_cons_self c pre)
    have hnp : ¬ (k :: ks).isPrefixOf (c :: (pre ++ (k :: ks) ++ post)) := by
      intro hcon
      obtain ⟨hk, -⟩ := List.cons_prefix_cons.1 (isPrefixOf_eq_iff.1 hcon)
      exact hck hk.symm
    have ih2 := ih fun x hx => h x (List.mem_cons_of_mem c hx)
    simp only [List.cons_append] at hnp ⊢
    simp only [splitAtFirst, List.append_eq, if_neg hnp]
    simp only [List.append_eq] at ih2
    rw [ih2]

theorem matchAt_some_parts {op cl l content after : List Char}
    (h : matchAt op cl l = some (content, after)) :
    ∃ a, l = op ++ a ++ '>' :: (content ++ cl ++ after) ∧ '>' ∉ a := by
  rw [matchAt] at h
  obtain ⟨r1, h1, h⟩ := Option.bind_eq_some.1 h
  obtain ⟨r2, h2, h3⟩ := Option.bind_eq_some.1 h
  obtain ⟨a, ha, hna⟩ := scanGt_eq_some h2
  have hl := stripPre_eq_some h1
  have h4 := splitAtFirst_eq_some h3
  refine ⟨a, ?_, hna⟩
  rw [hl, ha, h4]
  simp

theorem matchAt_some_length {op cl l content after : List Char} (hop : op ≠ [])
    (h : matchAt op cl l = some (content, after)) : after.length < l.length := by
  obtain ⟨a, hl, -⟩ := matchAt_some_parts h
  subst hl
  have : 1 ≤ op.length := List.length_pos.2 hop
  simp [List.length_append]
  omega

theorem matchAt_eq_none_of_no_open {op cl l : List Char} (h : ¬ op <+: l) :
    matchAt op cl l = none := by
  rw [matchAt, stripPre_eq_none_of_no_match h, Option.none_bind]

theorem faFuel_irrel {o : Char} {os cl : List Char} :
    ∀ n m l, l.length ≤ n → l.length ≤ m →
      faFuel (o :: os) cl n l = faFuel (o :: os) cl m l := by
  intro n
  induction n with
  | zero =>
    intro m l h1 _
    have : l = [] := List.eq_nil_of_length_eq_zero (Nat.le_zero.1 h1)
    subst this
    cases m <;> rfl
  | succ n ih =>
    intro m l h1 h2
    cases l with
    | nil => cases m <;> rfl
    | cons c rest =>
      cases m with
      | zero => simp at h2
      | succ m' =>
        cases hm : matchAt (o :: os) cl (c :: rest) with
        | some pair =>
          obtain ⟨content, after⟩ := pair
          have hlen := matchAt_some_length (List.cons_ne_nil o os) hm
          simp only [List.length_cons] at h1 h2 hlen
          simp only [faFuel, hm]
          rw [ih m' after (by omega) (by omega)]
        | none =>
          simp only [List.length_cons] at h1 h2
          simp only [faFuel, hm]
          rw [ih m' rest (by omega) (by omega)]

theorem raFuel_irrel {o : Char} {os cl : List Char} :
    ∀ n m l, l.length ≤ n → l.length ≤ m →
      raFuel (o :: os) cl n l = raFuel (o :: os) cl m l := by
  intro n
  induction n with
  | zero =>
    intro m l h1 _
    have : l = [] := List.eq_nil_of_length_eq_zero (Nat.le_zero.1 h1)
    subst this
    cases m <;> rfl
  | succ n ih =>
    intro m l h1 h2
    cases l with
    | nil => cases m <;> rfl
    | cons c rest =>
      cases m with
      | zero => simp at h2
      | succ m' =>
        cases hm : matchAt (o :: os) cl (c :: rest) with
        | some pair =>
          obtain ⟨content, after⟩ := pair
          have hlen := matchAt_some_length (List.cons_ne_nil o os) hm
          simp only [List.length_cons] at h1 h2 hlen
          simp only [raFuel, hm]
          rw [ih m' after (by omega) (by omega)]
        | none =>
          simp only [List.length_cons] at h1 h2
          simp only [raFuel, hm]
          rw [ih m' rest (by omega) (by omega)]

theorem findAll_cons_of_matchAt {o : Char} {os cl l content after : List Char}
    (hl : l ≠ []) (h : matchAt (o :: os) cl l = some (content, after)) :
    findAll (o :: os) cl l = content :: findAll (o :: os) cl after := by
  obtain ⟨c, rest, rfl⟩ := List.exists_cons_of_ne_nil hl
  have hlen := matchAt_some_length (List.cons_ne_nil o os) h
  simp only [findAll, List.length_cons, faFuel, h]
  simp only [List.length_cons] at hlen
  rw [faFuel_irrel rest.length after.length after (by omega) le_rfl]

theorem findAll_append_skip {o : Char} {os cl rest : List Char} :
    ∀ seg, (∀ t, t ≠ [] → t <:+ seg → matchAt (o :: os) cl (t ++ rest) = none) →
      findAll (o :: os) cl (seg ++ rest) = findAll (o :: os) cl rest := by
  intro seg
  induction seg with
  | nil => simp
  | cons c seg' ih =>
    intro h
    have h0 : matchAt (o :: os) cl ((c :: seg') ++ rest) = none :=
      h (c :: seg') (List.cons_ne_nil c seg') List.suffix_rfl
    simp only [List.cons_append] at h0 ⊢
    simp only [findAll, List.length_cons, faFuel, h0]
    exact ih fun t ht hts => h t ht (hts.trans (List.suffix_cons c seg'))

theorem removeAll_cons_of_matchAt {o : Char} {os cl l content after : List Char}
    (hl : l ≠ []) (h : matchAt (o :: os) cl l = some (content, after)) :
    removeAll (o :: os) cl l = removeAll (o :: os) cl after := by
  obtain ⟨c, rest, rfl⟩ := List.exists_cons_of_ne_nil hl
  have hlen := matchAt_some_length (List.cons_ne_nil o os) h
  simp only [removeAll, List.length_cons, raFuel, h]
  simp only [List.length_cons] at hlen
  rw [raFuel_irrel rest.length after.length after (by omega) le_rfl]

theorem removeAll_append_skip {o : Char} {os cl rest : List Char} :
    ∀ seg, (∀ t, t ≠ [] → t <:+ seg → matchAt (o :: os) cl (t ++ rest) = none) →
      removeAll (o :: os) cl (seg ++ rest) = seg ++ removeAll (o :: os) cl rest := by
  intro seg
  induction seg with
  | nil => simp
  | cons c seg' ih =>
    intro h
    have h0 : matchAt (o :: os) cl ((c :: seg') ++ rest) = none :=
      h (c :: seg') (List.cons_ne_nil c seg') List.suffix_rfl
    simp only [List.cons_append] at h0 ⊢
    simp only [removeAll, List.length_cons, raFuel, h0]
    have ih2 := ih fun t ht hts => h t ht (hts.trans (List.suffix_cons c seg'))
    simp only [removeAll] at ih2
    rw [ih2]

/-! ## Prefix and suffix helpers -/

theorem prefix_append_cases {a u v : List Char} (h : a <+: u ++ v) :
    a <+: u ∨ ∃ k, a = u ++ k ∧ k <+: v := by
  induction u generalizing a with
  | nil => exact Or.inr ⟨a, rfl, by simpa using h⟩
  | cons c u ih =>
    cases a with
    | nil => exact Or.inl ⟨c :: u, rfl⟩
    | cons b a =>
      rw [List.cons_append] at h
      obtain ⟨hb, ha⟩ := List.cons_prefix_cons.1 h
      subst hb
      rcases ih ha with h1 | ⟨k, hk1, hk2⟩
      · exact Or.inl (List.cons_prefix_cons.2 ⟨rfl, h1⟩)
      · exact Or.inr ⟨k, by rw [hk1, List.cons_append], hk2⟩

theorem suffix_append_cases {s u v : List Char} (h : s <:+ u ++ v) :
    s <:+ v ∨ ∃ u', u' <:+ u ∧ u' ≠ [] ∧ s = u' ++ v := by
  induction u with
  | nil => exact Or.inl (by simpa using h)
  | cons c u ih =>
    rw [List.cons_append] at h
    rcases List.suffix_cons_iff.1 h with h1 | h1
    · exact Or.inr ⟨c :: u, List.suffix_rfl, List.cons_ne_nil c u, by rw [h1, List.cons_append]⟩
    · rcases ih h1 with h2 | ⟨u', hu1, hu2, hu3⟩
      · exact Or.inl h2
      · exact Or.inr ⟨u', hu1.trans (List.suffix_cons c u), hu2, hu3⟩

theorem suffix_cons_head {c : Char} {mid s : List Char} (hm : c ∉ mid)
    (hs : s <:+ c :: mid) (hh : s.head? = some c) : s = c :: mid := by
  rcases List.suffix_cons_iff.1 hs with h | h
  · exact h
  · exfalso
    cases s with
    | nil => simp at hh
    | cons d s' =>
      simp only [List.head?_cons, Option.some.injEq] at hh
      subst hh
      exact hm (h.subset (List.mem_cons_self d s'))

theorem infix_of_prefix_of_suffix {a t seg : List Char} (h1 : a <+: t)
    (h2 : t <:+ seg) : a <:+: seg := by
  obtain ⟨r, hr⟩ := h1
  obtain ⟨u, hu⟩ := h2
  exact ⟨u, r, by rw [← hu, ← hr]; simp⟩

theorem no_trigger_in_segment {mid cl seg rest : List Char}
    (hinf : ¬ ('<' :: mid) <:+: seg)
    (hrest : rest = [] ∨ rest.head? = some '<') (hm : '<' ∉ mid) :
    ∀ t, t ≠ [] → t <:+ seg → matchAt ('<' :: mid) cl (t ++ rest) = none := by
  intro t ht hts
  apply matchAt_eq_none_of_no_open
  intro hpre
  rcases prefix_append_cases hpre with h1 | ⟨k, hk1, hk2⟩
  · exact hinf (infix_of_prefix_of_suffix h1 hts)
  · cases k with
    | nil =>
      rw [List.append_nil] at hk1
      exact hinf (hk1 ▸ infix_of_prefix_of_suffix List.prefix_rfl hts)
    | cons d k' =>
      rcases hrest with hre | hre
      · subst hre
        simp at hk2
      · obtain ⟨c0, rest', rfl⟩ : ∃ c0 r', rest = c0 :: r' := by
          cases rest with
          | nil => simp at hre
          | cons c0 r' => exact ⟨c0, r', rfl⟩
        simp only [List.head?_cons, Option.some.injEq] at hre
        obtain ⟨hd, -⟩ := List.cons_prefix_cons.1 hk2
        have hks : (d :: k') <:+ ('<' :: mid) := ⟨t, hk1.symm⟩
        have hk3 : d :: k' = '<' :: mid :=
          suffix_cons_head hm hks (by simp [hd, hre])
        rw [hk3] at hk1
        have hlen := congrArg List.length hk1
        simp only [List.length_cons, List.length_append] at hlen
        exact ht (List.eq_nil_of_length_eq_zero (by omega))

theorem not_prefix_through_gt {mid w X : List Char} (hgt : '>' ∉ mid)
    (hw : ¬ mid <+: w) : ¬ mid <+: (w ++ '>' :: X) := by
  intro h
  rcases prefix_append_cases h with h1 | ⟨k, hk1, hk2⟩
  · exact hw h1
  · cases k with
    | nil =>
      rw [List.append_nil] at hk1
      exact hw (hk1 ▸ List.prefix_rfl)
    | cons d k' =>
      obtain ⟨hd, -⟩ := List.cons_prefix_cons.1 hk2
      subst hd
      exact hgt (hk1 ▸ List.mem_append_right w (List.mem_cons_self _ _))

/-! ## Tag facts -/

theorem tagStr_no_gt : ∀ t : Tag, '>' ∉ tagStr t := by
  intro t; cases t <;> decide

theorem tagStr_no_lt : ∀ t : Tag, '<' ∉ tagStr t := by
  intro t; cases t <;> decide

theorem tagStr_head_no_slash : ∀ t : Tag, (tagStr t).head? ≠ some '/' := by
  intro t; cases t <;> decide

theorem tagStr_prefix_eq : ∀ t t' : Tag, tagStr t <+: tagStr t' → t = t' := by
  intro t t'; cases t <;> cases t' <;> decide

/-! ## Rendering lemmas -/

theorem lt_not_mem_closeTail (t : Tag) : '<' ∉ ('/' :: tagStr t ++ ['>']) := by
  cases t <;> decide

theorem lt_not_mem_openTail (t : Tag) : '<' ∉ (tagStr t ++ ['>']) := by
  cases t <;> decide

theorem render_suffix_lt {e : Elem} {s : List Char} (htxt : '<' ∉ e.txt)
    (hs : s <:+ render e) (hh : s.head? = some '<') :
    s = render e ∨ s = closeTag e.t := by
  have hs' : s <:+ (openTag e.t ++ e.txt) ++ closeTag e.t := hs
  rcases suffix_append_cases hs' with h1 | ⟨u', hu1, hu2, hu3⟩
  · right
    have h2 : s <:+ '<' :: ('/' :: tagStr e.t ++ ['>']) := h1
    exact suffix_cons_head (lt_not_mem_closeTail e.t) h2 hh
  · rcases suffix_append_cases hu1 with hA | ⟨a', ha1, ha2, ha3⟩
    · exfalso
      obtain ⟨d, u'', rfl⟩ := List.exists_cons_of_ne_nil hu2
      rw [hu3] at hh
      simp only [List.cons_append, List.head?_cons, Option.some.injEq] at hh
      exact htxt (hh ▸ hA.subset (List.mem_cons_self d u''))
    · left
      obtain ⟨d, a'', rfl⟩ := List.exists_cons_of_ne_nil ha2
      rw [hu3, ha3] at hh
      simp only [List.cons_append, List.head?_cons, Option.some.injEq] at hh
      subst hh
      have ha1' : ('<' :: a'') <:+ '<' :: (tagStr e.t ++ ['>']) := ha1
      have hop : ('<' :: a'') = '<' :: (tagStr e.t ++ ['>']) :=
        suffix_cons_head (lt_not_mem_openTail e.t) ha1' rfl
      rw [hu3, ha3, hop]
      show (openTag e.t ++ e.txt) ++ closeTag e.t = render e
      rw [render]

theorem render_no_trigger {mid : List Char} {e : Elem}
    (hgt : '>' ∉ mid) (hw : ¬ mid <+: tagStr e.t)
    (hsl : mid.head? ≠ some '/') (htxt : '<' ∉ e.txt) :
    ¬ ('<' :: mid) <:+: render e := by
  intro hinf
  obtain ⟨s, hs1, hs2⟩ := List.infix_iff_prefix_suffix.1 hinf
  have hshead : s.head? = some '<' := by
    cases s with
    | nil => simpa using List.prefix_nil.1 hs1
    | cons d s' =>
      obtain ⟨hd, -⟩ := List.cons_prefix_cons.1 hs1
      simp [← hd]
  rcases render_suffix_lt htxt hs2 hshead with hcase | hcase
  · rw [hcase] at hs1
    have hs1' : ('<' :: mid) <+:
        '<' :: (tagStr e.t ++ '>' :: (e.txt ++ closeTag e.t)) := by
      have hr : render e = '<' :: (tagStr e.t ++ '>' :: (e.txt ++ closeTag e.t)) := by
        rw [render, openTag]
        simp
      rw [← hr]
      exact hs1
    obtain ⟨-, hmp⟩ := List.cons_prefix_cons.1 hs1'
    exact not_prefix_through_gt hgt hw hmp
  · rw [hcase] at hs1
    have hs1' : ('<' :: mid) <+: '<' :: ('/' :: tagStr e.t ++ ['>']) := hs1
    obtain ⟨-, hmp⟩ := List.cons_prefix_cons.1 hs1'
    cases mid with
    | nil => exact hw ⟨tagStr e.t, by simp⟩
    | cons m0 mid' =>
      obtain ⟨hm0, -⟩ := List.cons_prefix_cons.1 hmp
      exact hsl (by simp [hm0])

theorem matchAt_render {e : Elem} (htxt : '<' ∉ e.txt) (rest : List Char) :
    matchAt ('<' :: tagStr e.t) (closeTag e.t) (render e ++ rest) =
      some (e.txt, rest) := by
  have hsplit : render e ++ rest =
      ('<' :: tagStr e.t) ++ ('>' :: (e.txt ++ closeTag e.t ++ rest)) := by
    simp [render, openTag, List.append_assoc]
  rw [hsplit, matchAt, stripPre_self, Option.some_bind]
  have hgt : scanGt ('>' :: (e.txt ++ closeTag e.t ++ rest)) =
      some (e.txt ++ closeTag e.t ++ rest) := by simp [scanGt]
  rw [hgt, Option.some_bind]
  have hb : e.txt ++ closeTag e.t ++ rest =
      e.txt ++ ('<' :: ('/' :: tagStr e.t ++ ['>'])) ++ rest := rfl
  rw [hb]
  exact splitAtFirst_boundary fun c hc heq => htxt (heq ▸ hc)

theorem renderFrag_shape (es : List Elem) :
    renderFrag es = [] ∨ (renderFrag es).head? = some '<' := by
  cases es with
  | nil => exact Or.inl rfl
  | cons e es' =>
    right
    rw [renderFrag, render, openTag]
    simp

theorem findAll_renderFrag (tg : Tag) :
    ∀ es, okFrag es →
      findAll ('<' :: tagStr tg) (closeTag tg) (renderFrag es) =
        (es.filter (fun e => e.t == tg)).map Elem.txt := by
  intro es
  induction es with
  | nil => intro _; rfl
  | cons e es ih =>
    intro hok
    have hoke : '<' ∉ e.txt := hok e (List.mem_cons_self e es)
    have hokes : okFrag es := fun x hx => hok x (List.mem_cons_of_mem e hx)
    rw [renderFrag]
    by_cases het : e.t = tg
    · have hm := matchAt_render hoke (renderFrag es)
      rw [het] at hm
      have hne : render e ++ renderFrag es ≠ [] := by
        rw [render, openTag]
        simp
      rw [findAll_cons_of_matchAt hne hm, ih hokes]
      simp [List.filter_cons, het]
    · have hw : ¬ tagStr tg <+: tagStr e.t := fun hp => het (tagStr_prefix_eq tg e.t hp).symm
      have hinf : ¬ ('<' :: tagStr tg) <:+: render e :=
        render_no_trigger (tagStr_no_gt tg) hw (tagStr_head_no_slash tg) hoke
      rw [findAll_append_skip (render e)
        (no_trigger_in_segment hinf (renderFrag_shape es) (tagStr_no_lt tg)), ih hokes]
      have : (e.t == tg) = false := by simpa using het
      simp [List.filter_cons, this]

theorem removeAll_renderFrag {mid cl2 : List Char}
    (hgt : '>' ∉ mid) (hlt : '<' ∉ mid)
    (hw : ∀ t : Tag, ¬ mid <+: tagStr t) (hsl : mid.head? ≠ some '/') :
    ∀ es, okFrag es → removeAll ('<' :: mid) cl2 (renderFrag es) = renderFrag es := by
  intro es
  induction es with
  | nil => intro _; rfl
  | cons e es ih =>
    intro hok
    have hoke : '<' ∉ e.txt := hok e (List.mem_cons_self e es)
    have hokes : okFrag es := fun x hx => hok x (List.mem_cons_of_mem e hx)
    rw [renderFrag]
    have hinf : ¬ ('<' :: mid) <:+: render e :=
      render_no_trigger hgt (hw e.t) hsl hoke
    rw [removeAll_append_skip (render e)
      (no_trigger_in_segment hinf (renderFrag_shape es) hlt), ih hokes]

theorem preRemove_renderFrag (es : List Elem) (hok : okFrag es) :
    preRemove (renderFrag es) = renderFrag es := by
  have h1 : "<script".data = '<' :: "script".data := rfl
  have h2 : "<style".data = '<' :: "style".data := rfl
  have h3 : "<svg".data = '<' :: "svg".data := rfl
  have h4 : "<figure".data = '<' :: "figure".data := rfl
  rw [preRemove, h1, h2, h3, h4]
  rw [removeAll_renderFrag (by decide) (by decide)
    (fun t => by cases t <;> decide) (by decide) es hok]
  rw [removeAll_renderFrag (by decide) (by decide)
    (fun t => by cases t <;> decide) (by decide) es hok]
  rw [removeAll_renderFrag (by decide) (by decide)
    (fun t => by cases t <;> decide) (by decide) es hok]
  rw [removeAll_renderFrag (by decide) (by decide)
    (fun t => by cases t <;> decide) (by decide) es hok]

/-- The characterization of the block extractor on rendered documents: the
blocks are exactly the level-grouped headings, then the nonempty cleaned
paragraphs in document order, then the nonempty list items in document
order. -/
theorem extractBlocks_renderFrag (es : List Elem) (hok : okFrag es) :
    extractBlocks (renderFrag es) = specBlocks es := by
  have e2o : hOpen 2 = '<' :: tagStr Tag.h2 := by decide
  have e2c : hClose 2 = closeTag Tag.h2 := by decide
  have e3o : hOpen 3 = '<' :: tagStr Tag.h3 := by decide
  have e3c : hClose 3 = closeTag Tag.h3 := by decide
  have e4o : hOpen 4 = '<' :: tagStr Tag.h4 := by decide
  have e4c : hClose 4 = closeTag Tag.h4 := by decide
  have e5o : hOpen 5 = '<' :: tagStr Tag.h5 := by decide
  have e5c : hClose 5 = closeTag Tag.h5 := by decide
  have e6o : hOpen 6 = '<' :: tagStr Tag.h6 := by decide
  have e6c : hClose 6 = closeTag Tag.h6 := by decide
  have epo : ['<', 'p'] = '<' :: tagStr Tag.p := by decide
  have epc : ['<', '/', 'p', '>'] = closeTag Tag.p := by decide
  have elo : ['<', 'l', 'i'] = '<' :: tagStr Tag.li := by decide
  have elc : ['<', '/', 'l', 'i', '>'] = closeTag Tag.li := by decide
  rw [extractBlocks, preRemove_renderFrag es hok, headingBlocks, paragraphBlocks,
    listItemBlocks]
  have hr : List.range' 2 5 = [2, 3, 4, 5, 6] := rfl
  rw [hr]
  simp only [List.flatMap_cons, List.flatMap_nil, List.append_nil]
  rw [e2o, e2c, e3o, e3c, e4o, e4c, e5o, e5c, e6o, e6c, epo, epc, elo, elc]
  rw [findAll_renderFrag Tag.h2 es hok, findAll_renderFrag Tag.h3 es hok,
    findAll_renderFrag Tag.h4 es hok, findAll_renderFrag Tag.h5 es hok,
    findAll_renderFrag Tag.h6 es hok, findAll_renderFrag Tag.p es hok,
    findAll_renderFrag Tag.li es hok]
  rw [specBlocks]
  simp only [List.map_map, List.filterMap_map]
  simp only [Function.comp_def, hBlockOf]
  norm_num
  rfl

/-! ## Lemmas about the text cleaner -/

theorem scanGt_length {l r : List Char} (h : scanGt l = some r) :
    r.length < l.length := by
  obtain ⟨a, ha, -⟩ := scanGt_eq_some h
  subst ha
  simp [List.length_append]
  omega

theorem findTagEnd_length {l r : List Char} (h : findTagEnd l = some r) :
    r.length < l.length := by
  cases l with
  | nil => simp [findTagEnd] at h
  | cons c l' =>
    by_cases hc : c = '>'
    · simp [findTagEnd, hc] at h
    · simp only [findTagEnd, if_neg hc] at h
      have := scanGt_length h
      simp only [List.length_cons]
      omega

theorem stFuel_irrel :
    ∀ n m l, l.length ≤ n → l.length ≤ m → stFuel n l = stFuel m l := by
  intro n
  induction n with
  | zero =>
    intro m l h1 _
    have : l = [] := List.eq_nil_of_length_eq_zero (Nat.le_zero.1 h1)
    subst this
    cases m <;> rfl
  | succ n ih =>
    intro m l h1 h2
    cases l with
    | nil => cases m <;> rfl
    | cons c rest =>
      cases m with
      | zero => simp at h2
      | succ m' =>
        simp only [List.length_cons] at h1 h2
        by_cases hc : c = '<'
        · subst hc
          cases hf : findTagEnd rest with
          | some rest2 =>
            have := findTagEnd_length hf
            simp only [stFuel, eq_self_iff_true, if_true, hf]
            rw [ih m' rest2 (by omega) (by omega)]
          | none =>
            simp only [stFuel, eq_self_iff_true, if_true, hf]
            rw [ih m' rest (by omega) (by omega)]
        · simp only [stFuel, if_neg hc]
          rw [ih m' rest (by omega) (by omega)]

theorem findTagEnd_boundary {m rest : List Char} (hm : m ≠ []) (hgt : '>' ∉ m) :
    findTagEnd (m ++ '>' :: rest) = some rest := by
  obtain ⟨c, m', rfl⟩ := List.exists_cons_of_ne_nil hm
  have hc : c ≠ '>' := fun h => hgt (h ▸ List.mem_cons_self c m')
  simp only [List.cons_append, findTagEnd, if_neg hc]
  exact scanGt_append fun h => hgt (List.mem_cons_of_mem c h)

theorem stripTags_tag {m rest : List Char} (hm : m ≠ []) (hgt : '>' ∉ m) :
    stripTags ('<' :: (m ++ '>' :: rest)) = ' ' :: stripTags rest := by
  rw [stripTags, stripTags]
  simp only [List.length_cons, stFuel, eq_self_iff_true, if_true,
    findTagEnd_boundary hm hgt]
  congr 1
  apply stFuel_irrel
  · simp [List.length_append]
    omega
  · exact le_rfl

theorem stripTags_keep {c : Char} {rest : List Char} (hc : c ≠ '<') :
    stripTags (c :: rest) = c :: stripTags rest := by
  rw [stripTags, stripTags]
  simp only [List.length_cons, stFuel, if_neg hc]

theorem stripTags_open_no_close {rest : List Char} (hf : findTagEnd rest = none) :
    stripTags ('<' :: rest) = '<' :: stripTags rest := by
  rw [stripTags, stripTags]
  simp only [List.length_cons, stFuel, eq_self_iff_true, if_true, hf]

theorem collapseWs_chars :
    ∀ l, ∀ c ∈ collapseWs l, c = ' ' ∨ isPySpace c = false := by
  intro l
  induction l with
  | nil => intro c hc; simp [collapseWs] at hc
  | cons a rest ih =>
    intro c hc
    cases rest with
    | nil =>
      by_cases ha : isPySpace a = true
      · simp only [collapseWs, if_pos ha, List.mem_singleton] at hc
        exact Or.inl hc
      · simp only [collapseWs, if_neg ha, List.mem_singleton] at hc
        subst hc
        exact Or.inr (Bool.not_eq_true _ ▸ ha)
    | cons d rest' =>
      by_cases ha : isPySpace a = true
      · by_cases hd : isPySpace d = true
        · simp only [collapseWs, if_pos ha, if_pos hd] at hc
          exact ih c hc
        · simp only [collapseWs, if_pos ha, if_neg hd] at hc
          rcases List.mem_cons.1 hc with h | h
          · exact Or.inl h
          · exact ih c h
      · simp only [collapseWs, if_neg ha] at hc
        rcases List.mem_cons.1 hc with h | h
        · subst h
          exact Or.inr (Bool.not_eq_true _ ▸ ha)
        · exact ih c h

theorem collapseNl_subset : ∀ l, ∀ c ∈ collapseNl l, c ∈ l := by
  intro l
  induction l with
  | nil => intro c hc; simp [collapseNl] at hc
  | cons a rest ih =>
    intro c hc
    cases rest with
    | nil => simpa [collapseNl] using hc
    | cons d rest' =>
      by_cases hnl : (a = '\n' && d = '\n') = true
      · simp only [collapseNl, if_pos hnl] at hc
        exact List.mem_cons_of_mem a (ih c hc)
      · simp only [collapseNl, if_neg hnl] at hc
        rcases List.mem_cons.1 hc with h | h
        · exact h ▸ List.mem_cons_self a _
        · exact List.mem_cons_of_mem a (ih c h)

theorem head_dropWhile_not {p : Char → Bool} :
    ∀ (l : List Char) (c : Char), (l.dropWhile p).head? = some c → p c = false := by
  intro l
  induction l with
  | nil => intro c h; simp [List.dropWhile] at h
  | cons a rest ih =>
    intro c h
    by_cases ha : p a = true
    · rw [List.dropWhile_cons, if_pos ha] at h
      exact ih c h
    · rw [List.dropWhile_cons, if_neg ha] at h
      simp only [List.head?_cons, Option.some.injEq] at h
      exact h ▸ Bool.not_eq_true _ ▸ ha

theorem pyStrip_subset {l : List Char} : ∀ c ∈ pyStrip l, c ∈ l := by
  intro c hc
  rw [pyStrip, List.mem_reverse] at hc
  have h1 := (List.dropWhile_sublist _).subset hc
  rw [List.mem_reverse] at h1
  exact (List.dropWhile_sublist _).subset h1

theorem pyStrip_head {l : List Char} {c : Char} (h : (pyStrip l).head? = some c) :
    isPySpace c = false := by
  rw [pyStrip, List.head?_reverse] at h
  obtain ⟨u, hu⟩ :=
    @List.dropWhile_suffix Char ((l.dropWhile isPySpace).reverse) isPySpace
  have h2 : ((l.dropWhile isPySpace).reverse).getLast? = some c := by
    rw [← hu, List.getLast?_append, h]
    rfl
  rw [List.getLast?_reverse] at h2
  exact head_dropWhile_not l c h2

theorem pyStrip_last {l : List Char} {c : Char} (h : (pyStrip l).getLast? = some c) :
    isPySpace c = false := by
  rw [pyStrip, List.getLast?_reverse] at h
  exact head_dropWhile_not _ c h

/-! ## Lemmas about the index scanner -/

theorem containsSub_iff (pat : List Char) :
    ∀ l, containsSub pat l = true ↔ pat <:+: l := by
  intro l
  induction l with
  | nil => simp [containsSub, List.isEmpty_iff]
  | cons c rest ih =>
    simp only [containsSub, Bool.or_eq_true, isPrefixOf_eq_iff, ih]
    exact (List.infix_cons_iff).symm

theorem urlTry_eq_some {l m after : List Char} (h : urlTry l = some (m, after)) :
    ∃ run c w, l = (postUrlLit ++ run) ++ c :: w ∧ m = postUrlLit ++ run ∧
      after = c :: w ∧ run ≠ [] ∧ (∀ x ∈ run, isSlugStop x = false) ∧
      isUrlStop c = true := by
  rw [urlTry] at h
  obtain ⟨r, h1, h2⟩ := Option.bind_eq_some.1 h
  simp only at h2
  by_cases hre : (r.takeWhile (fun c => !isSlugStop c)).isEmpty
  · rw [if_pos hre] at h2
    simp at h2
  · rw [if_neg hre] at h2
    obtain ⟨c, h3, h4⟩ := Option.bind_eq_some.1 h2
    by_cases hst : isUrlStop c = true
    · rw [if_pos hst] at h4
      simp only [Option.some.injEq, Prod.mk.injEq] at h4
      obtain ⟨rfl, rfl⟩ := h4
      obtain ⟨w, hw⟩ : ∃ w, r.dropWhile (fun c => !isSlugStop c) = c :: w := by
        cases hdw : r.dropWhile (fun c => !isSlugStop c) with
        | nil => rw [hdw] at h3; simp at h3
        | cons c' w =>
          rw [hdw] at h3
          simp only [List.head?_cons, Option.some.injEq] at h3
          exact ⟨w, by rw [h3]⟩
      refine ⟨r.takeWhile (fun c => !isSlugStop c), c, w, ?_, rfl, hw, ?_, ?_, hst⟩
      · have hr : r = List.takeWhile (fun c => !isSlugStop c) r ++ (c :: w) := by
          rw [← hw, List.takeWhile_append_dropWhile]
        rw [stripPre_eq_some h1]
        conv_lhs => rw [hr]
        rw [← List.append_assoc]
      · intro h0
        rw [h0] at hre
        simp at hre
      · intro x hx
        have := List.mem_takeWhile_imp hx
        simpa using this
    · rw [if_neg hst] at h4
      simp at h4

theorem usFuel_spec :
    ∀ n l m, m ∈ usFuel n l →
      ∃ u run c w, l = u ++ (postUrlLit ++ run) ++ c :: w ∧
        m = postUrlLit ++ run ∧ run ≠ [] ∧
        (∀ x ∈ run, isSlugStop x = false) ∧ isUrlStop c = true := by
  intro n
  induction n with
  | zero => intro l m hm; simp [usFuel] at hm
  | succ n ih =>
    intro l m hm
    cases l with
    | nil => simp [usFuel] at hm
    | cons a rest =>
      cases ht : urlTry (a :: rest) with
      | some pair =>
        obtain ⟨m0, after⟩ := pair
        simp only [usFuel, ht] at hm
        obtain ⟨run0, c0, w0, hl0, hm0, hafter, hrun0, hch0, hst0⟩ := urlTry_eq_some ht
        rcases List.mem_cons.1 hm with rfl | hmem
        · exact ⟨[], run0, c0, w0, by simpa using hl0, hm0, hrun0, hch0, hst0⟩
        · obtain ⟨u', run, c, w, hl', hm', hrun, hch, hst⟩ := ih after m hmem
          refine ⟨(postUrlLit ++ run0) ++ u', run, c, w, ?_, hm', hrun, hch, hst⟩
          have hres : a :: rest = (postUrlLit ++ run0) ++ after := by rw [hl0, hafter]
          rw [hres, hl']
          simp [List.append_assoc]
      | none =>
        simp only [usFuel, ht] at hm
        obtain ⟨u, run, c, w, hl, hm', hrun, hch, hst⟩ := ih rest m hm
        exact ⟨a :: u, run, c, w, by simp [hl], hm', hrun, hch, hst⟩

theorem uniqAcc_eq : ∀ l acc, uniqAcc acc l = acc ++ uniqPart acc l := by
  intro l
  induction l with
  | nil => intro acc; simp [uniqAcc, uniqPart]
  | cons u rest ih =>
    intro acc
    by_cases hu : u ∈ acc
    · rw [uniqAcc, if_pos hu, uniqPart, if_pos hu]
      exact ih acc
    · rw [uniqAcc, if_neg hu, uniqPart, if_neg hu]
      rw [ih (acc ++ [u])]
      simp

theorem uniqPart_mem : ∀ l acc x, x ∈ uniqPart acc l ↔ x ∈ l ∧ x ∉ acc := by
  intro l
  induction l with
  | nil => intro acc x; simp [uniqPart]
  | cons u rest ih =>
    intro acc x
    by_cases hu : u ∈ acc
    · rw [uniqPart, if_pos hu, ih]
      simp only [List.mem_cons]
      constructor
      · rintro ⟨h1, h2⟩
        exact ⟨Or.inr h1, h2⟩
      · rintro ⟨h1 | h1, h2⟩
        · exact absurd (h1 ▸ hu) h2
        · exact ⟨h1, h2⟩
    · rw [uniqPart, if_neg hu]
      simp only [List.mem_cons, ih, List.mem_append, List.mem_singleton]
      by_cases hxu : x = u
      · subst hxu
        simp [hu]
      · simp only [hxu, false_or]
        tauto

theorem uniqPart_nodup : ∀ l acc, (uniqPart acc l).Nodup := by
  intro l
  induction l with
  | nil => intro acc; simp [uniqPart]
  | cons u rest ih =>
    intro acc
    by_cases hu : u ∈ acc
    · rw [uniqPart, if_pos hu]
      exact ih acc
    · rw [uniqPart, if_neg hu]
      refine List.Nodup.cons ?_ (ih (acc ++ [u]))
      intro hmem
      exact ((uniqPart_mem rest (acc ++ [u]) u).1 hmem).2 (by simp)

theorem firstIdx_cons_self (x : List Char) (l : List (List Char)) :
    firstIdx x (x :: l) = 0 := by simp [firstIdx]

theorem firstIdx_cons_ne {x u : List Char} (h : u ≠ x) (l : List (List Char)) :
    firstIdx x (u :: l) = firstIdx x l + 1 := by simp [firstIdx, h]

theorem uniqPart_pairwise : ∀ l acc,
    List.Pairwise (fun a b => firstIdx a l < firstIdx b l) (uniqPart acc l) := by
  intro l
  induction l with
  | nil => intro acc; simp [uniqPart]
  | cons u rest ih =>
    intro acc
    by_cases hu : u ∈ acc
    · rw [uniqPart, if_pos hu]
      refine List.Pairwise.imp_of_mem ?_ (ih acc)
      intro a b ha hb hab
      have hna : a ≠ u := fun he => ((uniqPart_mem rest acc a).1 ha).2 (he ▸ hu)
      have hnb : b ≠ u := fun he => ((uniqPart_mem rest acc b).1 hb).2 (he ▸ hu)
      rw [firstIdx_cons_ne (Ne.symm hna), firstIdx_cons_ne (Ne.symm hnb)]
      omega
    · rw [uniqPart, if_neg hu]
      constructor
      · intro b hb
        have hnb : b ≠ u := fun he => ((uniqPart_mem rest (acc ++ [u]) b).1 hb).2 (by simp [he])
        rw [firstIdx_cons_self, firstIdx_cons_ne (Ne.symm hnb)]
        omega
      · refine List.Pairwise.imp_of_mem ?_ (ih (acc ++ [u]))
        intro a b ha hb hab
        have hna : a ≠ u := fun he => ((uniqPart_mem rest (acc ++ [u]) a).1 ha).2 (by simp [he])
        have hnb : b ≠ u := fun he => ((uniqPart_mem rest (acc ++ [u]) b).1 hb).2 (by simp [he])
        rw [firstIdx_cons_ne (Ne.symm hna), firstIdx_cons_ne (Ne.symm hnb)]
        omega

theorem firstIdx_filter_lt {p : List Char → Bool} :
    ∀ (l : List (List Char)) a b, a ∈ l.filter p → b ∈ l.filter p →
      firstIdx a (l.filter p) < firstIdx b (l.filter p) →
      firstIdx a l < firstIdx b l := by
  intro l
  induction l with
  | nil => intro a b ha _ _; simp at ha
  | cons hd rest ih =>
    intro a b ha hb hlt
    by_cases hp : p hd = true
    · rw [List.filter_cons_of_pos hp] at ha hb hlt
      by_cases hau : a = hd
      · subst hau
        have hbu : b ≠ a := by
          intro he
          subst he
          rw [firstIdx_cons_self] at hlt
          exact Nat.not_lt_zero _ (Nat.lt_of_lt_of_le hlt (Nat.zero_le _))
        rw [firstIdx_cons_self, firstIdx_cons_ne hbu.symm]
        omega
      · by_cases hbu : b = hd
        · subst hbu
          rw [firstIdx_cons_self, firstIdx_cons_ne (Ne.symm hau)] at hlt
          omega
        · rw [firstIdx_cons_ne (Ne.symm hau), firstIdx_cons_ne (Ne.symm hbu)] at hlt ⊢
          have ha' : a ∈ rest.filter p := by
            rcases List.mem_cons.1 ha with h | h
            · exact absurd h hau
            · exact h
          have hb' : b ∈ rest.filter p := by
            rcases List.mem_cons.1 hb with h | h
            · exact absurd h hbu
            · exact h
          have := ih a b ha' hb' (by omega)
          omega
    · rw [List.filter_cons_of_neg hp] at ha hb hlt
      have hau : a ≠ hd := by
        intro he
        exact hp (he ▸ (List.mem_filter.1 ha).2)
      have hbu : b ≠ hd := by
        intro he
        exact hp (he ▸ (List.mem_filter.1 hb).2)
      rw [firstIdx_cons_ne (Ne.symm hau), firstIdx_cons_ne (Ne.symm hbu)]
      have := ih a b ha hb hlt
      omega

theorem tradeArticles_urls (page : List Char) :
    (tradeArticlesOf page).map ArticleSummary.url =
      uniqPart [] ((urlScan page).filter urlFilter) := by
  rw [tradeArticlesOf, uniqAcc_eq, List.nil_append, List.map_map]
  have hcomp : ArticleSummary.url ∘ mkSummary = id := rfl
  rw [hcomp, List.map_id]

/-! ## Lemmas about the locator searches -/

theorem no_op_prefix_at {mid seg rest : List Char}
    (hinf : ¬ ('<' :: mid) <:+: seg)
    (hrest : rest = [] ∨ rest.head? = some '<') (hm : '<' ∉ mid) :
    ∀ t, t ≠ [] → t <:+ seg → ¬ ('<' :: mid) <+: (t ++ rest) := by
  intro t ht hts hpre
  rcases prefix_append_cases hpre with h1 | ⟨k, hk1, hk2⟩
  · exact hinf (infix_of_prefix_of_suffix h1 hts)
  · cases k with
    | nil =>
      rw [List.append_nil] at hk1
      exact hinf (hk1 ▸ infix_of_prefix_of_suffix List.prefix_rfl hts)
    | cons d k' =>
      rcases hrest with hre | hre
      · subst hre
        simp at hk2
      · obtain ⟨c0, rest', rfl⟩ : ∃ c0 r', rest = c0 :: r' := by
          cases rest with
          | nil => simp at hre
          | cons c0 r' => exact ⟨c0, r', rfl⟩
        simp only [List.head?_cons, Option.some.injEq] at hre
        obtain ⟨hd, -⟩ := List.cons_prefix_cons.1 hk2
        have hks : (d :: k') <:+ ('<' :: mid) := ⟨t, hk1.symm⟩
        have hk3 : d :: k' = '<' :: mid :=
          suffix_cons_head hm hks (by simp [hd, hre])
        rw [hk3] at hk1
        have hlen := congrArg List.length hk1
        simp only [List.length_cons, List.length_append] at hlen
        exact ht (List.eq_nil_of_length_eq_zero (by omega))

theorem searchFirst_append_skip {o : Char} {os cl rest : List Char} :
    ∀ seg, (∀ t, t ≠ [] → t <:+ seg → matchAt (o :: os) cl (t ++ rest) = none) →
      searchFirst (o :: os) cl (seg ++ rest) = searchFirst (o :: os) cl rest := by
  intro seg
  induction seg with
  | nil => simp
  | cons c seg' ih =>
    intro h
    have h0 := h (c :: seg') (List.cons_ne_nil c seg') List.suffix_rfl
    simp only [List.cons_append] at h0 ⊢
    simp only [searchFirst, h0]
    exact ih fun t ht hts => h t ht (hts.trans (List.suffix_cons c seg'))

theorem searchFirst_cons_match {o : Char} {os cl l content after : List Char}
    (hl : l ≠ []) (h : matchAt (o :: os) cl l = some (content, after)) :
    searchFirst (o :: os) cl l = some content := by
  obtain ⟨c, rest, rfl⟩ := List.exists_cons_of_ne_nil hl
  simp [searchFirst, h]

theorem searchFirst_eq_none_of_absent {o : Char} {os cl : List Char} :
    ∀ l, ¬ ((o :: os) <:+: l) → searchFirst (o :: os) cl l = none := by
  intro l
  induction l with
  | nil => intro _; rfl
  | cons c rest ih =>
    intro h
    have h0 : matchAt (o :: os) cl (c :: rest) = none :=
      matchAt_eq_none_of_no_open fun hp =>
        h (infix_of_prefix_of_suffix hp List.suffix_rfl)
    simp only [searchFirst, h0]
    exact ih fun hi => h (List.infix_cons_iff.2 (Or.inr hi))

theorem titleOf_structured {u t v : List Char}
    (hu : ¬ ("<h1".data <:+: u)) (ht : '<' ∉ t) :
    titleOf (u ++ "<h1>".data ++ t ++ "</h1>".data ++ v) = clean_html_text t := by
  rw [titleOf]
  have hop : "<h1".data = '<' :: "h1".data := rfl
  have hpage : u ++ "<h1>".data ++ t ++ "</h1>".data ++ v =
      u ++ ("<h1>".data ++ (t ++ ("</h1>".data ++ v))) := by
    simp [List.append_assoc]
  rw [hpage, hop]
  have hinf : ¬ ('<' :: "h1".data) <:+: u := by rwa [hop] at hu
  have hrest : "<h1>".data ++ (t ++ ("</h1>".data ++ v)) = [] ∨
      ("<h1>".data ++ (t ++ ("</h1>".data ++ v))).head? = some '<' := Or.inr rfl
  rw [searchFirst_append_skip u fun s hs1 hs2 =>
    matchAt_eq_none_of_no_open (no_op_prefix_at hinf hrest (by decide) s hs1 hs2)]
  have hm : matchAt ('<' :: "h1".data) "</h1>".data
      ("<h1>".data ++ (t ++ ("</h1>".data ++ v))) = some (t, v) := by
    have hform : "<h1>".data ++ (t ++ ("</h1>".data ++ v)) =
        ('<' :: "h1".data) ++ ('>' :: (t ++ ("</h1>".data ++ v))) := rfl
    rw [hform, matchAt, stripPre_self, Option.some_bind]
    have hgt : scanGt ('>' :: (t ++ ("</h1>".data ++ v))) =
        some (t ++ ("</h1>".data ++ v)) := by simp [scanGt]
    rw [hgt, Option.some_bind]
    have hsp : t ++ ("</h1>".data ++ v) =
        t ++ ('<' :: "/h1>".data) ++ v := by
      rw [List.append_assoc]
    rw [hsp]
    exact splitAtFirst_boundary fun c hc he => ht (he ▸ hc)
  rw [searchFirst_cons_match (by simp) hm]

theorem titleOf_no_h1 {page : List Char} (h : ¬ ("<h1".data <:+: page)) :
    titleOf page = unknownTitle := by
  rw [titleOf]
  have hop : "<h1".data = '<' :: "h1".data := rfl
  rw [hop] at h ⊢
  rw [searchFirst_eq_none_of_absent page h]

theorem takeWhile_append_stop {p : Char → Bool} {d : List Char} {q : Char}
    {w : List Char} (hd : ∀ x ∈ d, p x = true) (hq : p q = false) :
    (d ++ q :: w).takeWhile p = d := by
  induction d with
  | nil => simp [List.takeWhile_cons, hq]
  | cons a d' ih =>
    rw [List.cons_append, List.takeWhile_cons, if_pos (hd a (List.mem_cons_self a d'))]
    rw [ih fun x hx => hd x (List.mem_cons_of_mem a hx)]

theorem dtScan_cons_none {c : Char} {rest : List Char}
    (h1 : dtTry (c :: rest) = none) (h2 : c ≠ '>') :
    dtScan (c :: rest) = dtScan rest := by
  simp [dtScan, h1, h2]

theorem dtScan_cons_some {c : Char} {rest v : List Char}
    (h : dtTry (c :: rest) = some v) : dtScan (c :: rest) = some v := by
  simp [dtScan, h]

theorem timeAt_eq_none_of_no_open {l : List Char} (h : ¬ "<time".data <+: l) :
    timeAt l = none := by
  rw [timeAt, stripPre_eq_none_of_no_match h, Option.none_bind]

theorem searchDatetime_append_skip {rest : List Char} :
    ∀ seg, (∀ s, s ≠ [] → s <:+ seg → ¬ ("<time".data <+: (s ++ rest))) →
      searchDatetime (seg ++ rest) = searchDatetime rest := by
  intro seg
  induction seg with
  | nil => simp
  | cons c seg' ih =>
    intro h
    have h0 : timeAt ((c :: seg') ++ rest) = none :=
      timeAt_eq_none_of_no_open (h (c :: seg') (List.cons_ne_nil c seg') List.suffix_rfl)
    simp only [List.cons_append] at h0 ⊢
    simp only [searchDatetime, h0]
    exact ih fun s hs1 hs2 => h s hs1 (hs2.trans (List.suffix_cons c seg'))

theorem dtTry_head_space {X : List Char} :
    dtTry (' ' :: X) = none := by
  rw [dtTry, if_neg]
  intro hcon
  obtain ⟨hc, -⟩ := List.cons_prefix_cons.1 (isPrefixOf_eq_iff.1 hcon)
  exact absurd hc (by decide)

theorem dtTry_at_attr {d w : List Char} (hd : '"' ∉ d) (hdn : d ≠ []) :
    dtTry ("datetime=\"".data ++ (d ++ '"' :: w)) = some d := by
  rw [dtTry, if_pos (isPrefixOf_eq_iff.2 ⟨d ++ '"' :: w, rfl⟩)]
  have hdrop : ("datetime=\"".data ++ (d ++ '"' :: w)).drop 10 = d ++ '"' :: w := by
    have hlen : ("datetime=\"".data).length = 10 := rfl
    rw [← hlen, List.drop_left]
  simp only [hdrop]
  have htw : (d ++ '"' :: w).takeWhile (fun x => x ≠ '"') = d :=
    takeWhile_append_stop
      (fun x hx => decide_eq_true fun he => hd (he ▸ hx)) (by decide)
  simp only [htw]
  rw [if_neg (by simpa [List.isEmpty_iff] using hdn)]
  have hdr : (d ++ '"' :: w).drop d.length = '"' :: w := List.drop_left d ('"' :: w)
  rw [hdr]
  simp

theorem dateOf_structured {u d w : List Char}
    (hu : ¬ ("<time".data <:+: u)) (hd : '"' ∉ d) (hdn : d ≠ []) :
    dateOf (u ++ ("<time datetime=\"".data ++ (d ++ '"' :: w))) = d := by
  rw [dateOf]
  have hop : "<time".data = '<' :: "time".data := rfl
  have hrest : "<time datetime=\"".data ++ (d ++ '"' :: w) = [] ∨
      ("<time datetime=\"".data ++ (d ++ '"' :: w)).head? = some '<' := Or.inr rfl
  rw [searchDatetime_append_skip u fun s hs1 hs2 => by
    rw [hop]
    exact no_op_prefix_at (by rwa [hop] at hu) hrest (by decide) s hs1 hs2]
  have htime : timeAt ("<time datetime=\"".data ++ (d ++ '"' :: w)) = some d := by
    have hform : "<time datetime=\"".data ++ (d ++ '"' :: w) =
        "<time".data ++ (' ' :: ("datetime=\"".data ++ (d ++ '"' :: w))) := by
      have : "<time datetime=\"".data =
          "<time".data ++ (' ' :: "datetime=\"".data) := rfl
      rw [this, List.append_assoc]
      rfl
    rw [hform, timeAt, stripPre_self, Option.some_bind]
    rw [dtScan_cons_none dtTry_head_space (by decide)]
    exact dtScan_cons_some (dtTry_at_attr hd hdn)
  have hsd : ∀ (c : Char) (rest v : List Char), timeAt (c :: rest) = some v →
      searchDatetime (c :: rest) = some v := by
    intro c rest v h
    simp [searchDatetime, h]
  have hform2 : "<time datetime=\"".data ++ (d ++ '"' :: w) =
      '<' :: ("time datetime=\"".data ++ (d ++ '"' :: w)) := rfl
  rw [hform2] at htime ⊢
  rw [hsd _ _ _ htime]
  rfl

theorem dateOf_no_time {page : List Char} (h : ¬ ("<time".data <:+: page)) :
    dateOf page = [] := by
  rw [dateOf]
  have hnone : ∀ l, ¬ ("<time".data <:+: l) → searchDatetime l = none := by
    intro l
    induction l with
    | nil => intro _; rfl
    | cons c rest ih =>
      intro hni
      have h0 : timeAt (c :: rest) = none :=
        timeAt_eq_none_of_no_open fun hp =>
          hni (infix_of_prefix_of_suffix hp List.suffix_rfl)
      simp only [searchDatetime, h0]
      exact ih fun hi => hni (List.infix_cons_iff.2 (Or.inr hi))
  rw [hnone page h]
  rfl

theorem clean_no_newline (s : List Char) : '\n' ∉ clean_html_text s := by
  intro h
  have h1 : '\n' ∈ collapseNl (collapseWs (decodeEntities (stripTags s))) :=
    pyStrip_subset '\n' h
  have h2 := collapseNl_subset _ _ h1
  rcases collapseWs_chars _ _ h2 with h3 | h3
  · exact absurd h3 (by decide)
  · exact absurd h3 (by decide)

/-! ## Claim theorems -/

/-- C1.  `extractBlocks` emits heading blocks grouped by level (all level-2
headings, then level 3, … then level 6, not interleaved in document order),
each rendered as `(level-1)` hash marks and the cleaned text; then all
paragraph blocks in document order; then all list-item blocks as a trailing
group in document order, each with the leading bullet marker — proved
against the reference ordering `specBlocks` for every rendered document of
sibling elements.  In particular `<h2>A</h2><p>B</p><li>C</li>` yields
exactly the 3 blocks in heading, paragraph, list-item order. -/
theorem c1_extractBlocks_ordering :
    (∀ es : List Elem, okFrag es → extractBlocks (renderFrag es) = specBlocks es) ∧
      extractBlocks "<h2>A</h2><p>B</p><li>C</li>".data =
        ["# A".data, "B".data, bulletMark ++ "C".data] :=
  ⟨extractBlocks_renderFrag, by decide⟩

theorem c1_extractBlocks_ordering_witness :
    okFrag [⟨Tag.h2, "A".data⟩, ⟨Tag.p, "B".data⟩, ⟨Tag.li, "C".data⟩] ∧
      extractBlocks
          (renderFrag [⟨Tag.h2, "A".data⟩, ⟨Tag.p, "B".data⟩, ⟨Tag.li, "C".data⟩]) =
        specBlocks [⟨Tag.h2, "A".data⟩, ⟨Tag.p, "B".data⟩, ⟨Tag.li, "C".data⟩] :=
  ⟨by rw [okFrag]; decide, c1_extractBlocks_ordering.1 _ (by rw [okFrag]; decide)⟩

/-- C5 counterexample.  Cleaning `"a<b>c"` does not leave only the
characters outside the angle-bracket run (`"ac"`): the tag is replaced by a
space, so the result is `"a c"`. -/
theorem c5_clean_removal_cx :
    clean_html_text "a<b>c".data ≠ "ac".data ∧
      clean_html_text "a<b>c".data = "a c".data := by decide

/-- C5 (amended).  The tag-removal stage of `clean_html_text` replaces every
angle-bracket-delimited run `<[^>]+>` by a single space (leftmost,
non-overlapping), keeps every other character, and leaves an unmatched `<`
in place; consequently cleaning `"a<b>c"` yields `"a c"` — the characters
outside the run separated by the space that replaced the tag. -/
theorem c5_clean_tag_replacement :
    (∀ s : List Char, clean_html_text s =
      pyStrip (collapseNl (collapseWs (decodeEntities (stripTags s))))) ∧
    (∀ m rest : List Char, m ≠ [] → '>' ∉ m →
      stripTags ('<' :: (m ++ '>' :: rest)) = ' ' :: stripTags rest) ∧
    (∀ (c : Char) (rest : List Char), c ≠ '<' →
      stripTags (c :: rest) = c :: stripTags rest) ∧
    (∀ rest : List Char, findTagEnd rest = none →
      stripTags ('<' :: rest) = '<' :: stripTags rest) ∧
    clean_html_text "a<b>c".data = "a c".data :=
  ⟨fun _ => rfl, fun _ _ hm hgt => stripTags_tag hm hgt,
   fun _ _ hc => stripTags_keep hc, fun _ hf => stripTags_open_no_close hf,
   by decide⟩

theorem c5_clean_tag_replacement_witness :
    stripTags ('<' :: ("b".data ++ '>' :: "c".data)) = ' ' :: stripTags "c".data ∧
      stripTags ('a' :: "bc".data) = 'a' :: stripTags "bc".data :=
  ⟨c5_clean_tag_replacement.2.1 "b".data "c".data (by decide) (by decide),
   c5_clean_tag_replacement.2.2.1 'a' "bc".data (by decide)⟩

/-- C6.  `clean("") = ""` and `clean("<b>hi</b>  there\n\n") = "hi there"`;
moreover for every input the output contains no newline and is trimmed: its
first and last characters (when present) are not whitespace. -/
theorem c6_clean_singleline_trimmed :
    clean_html_text "".data = "".data ∧
    clean_html_text "<b>hi</b>  there\n\n".data = "hi there".data ∧
    (∀ s : List Char, '\n' ∉ clean_html_text s) ∧
    (∀ (s : List Char) (c : Char),
      (clean_html_text s).head? = some c → isPySpace c = false) ∧
    (∀ (s : List Char) (c : Char),
      (clean_html_text s).getLast? = some c → isPySpace c = false) :=
  ⟨by decide, by decide, clean_no_newline,
   fun _ _ h => pyStrip_head h, fun _ _ h => pyStrip_last h⟩

theorem c6_clean_singleline_trimmed_witness :
    '\n' ∉ clean_html_text "a\n\nb".data ∧ isPySpace 'h' = false :=
  ⟨c6_clean_singleline_trimmed.2.2.1 "a\n\nb".data,
   c6_clean_singleline_trimmed.2.2.2.1 "<b>hi</b>  there\n\n".data 'h' (by decide)⟩

/-- C10.  The index scanner matches a post URL only when the literal prefix
is followed by a nonempty run of slug characters (no slash, whitespace or
quote) and the run is immediately followed by a whitespace or quote
character (the lookahead); a page whose only post URL sits at the very end
of the text therefore yields the empty list. -/
theorem c10_urlScan_lookahead :
    (∀ page m, m ∈ urlScan page →
      ∃ u run c w, page = u ++ (postUrlLit ++ run) ++ c :: w ∧
        m = postUrlLit ++ run ∧ run ≠ [] ∧
        (∀ x ∈ run, isSlugStop x = false) ∧ isUrlStop c = true) ∧
      urlScan "see https://tradecompanion.substack.com/p/slug".data = [] :=
  ⟨fun page m hm => usFuel_spec page.length page m hm, by decide⟩

theorem c10_urlScan_lookahead_witness :
    ∃ u run c w,
      "x https://tradecompanion.substack.com/p/a b".data =
          u ++ (postUrlLit ++ run) ++ c :: w ∧
        postUrlLit ++ ['a'] = postUrlLit ++ run ∧ run ≠ [] ∧
        (∀ x ∈ run, isSlugStop x = false) ∧ isUrlStop c = true :=
  c10_urlScan_lookahead.1 "x https://tradecompanion.substack.com/p/a b".data
    (postUrlLit ++ ['a']) (by decide)

/-- C2.  For every index page, the URLs of the returned summaries are
pairwise distinct, each has the canonical shape
`<publication-origin>/p/<slug>` with a nonempty slug free of slash,
whitespace and quote characters, none contains the excluded slug as a
substring, every filtered scanned URL is represented, and the list is
strictly ordered by index of first occurrence in the scanned match
sequence (duplicates keep the first occurrence). -/
theorem c2_index_invariants (page : List Char) :
    ((tradeArticlesOf page).map ArticleSummary.url).Nodup ∧
    (∀ u ∈ (tradeArticlesOf page).map ArticleSummary.url,
      ∃ slug, u = tradeCompanionUrl ++ "/p/".data ++ slug ∧ slug ≠ [] ∧
        ∀ x ∈ slug, isSlugStop x = false) ∧
    (∀ u ∈ (tradeArticlesOf page).map ArticleSummary.url,
      ¬ (excludedSlug <:+: u)) ∧
    (∀ u ∈ (urlScan page).filter urlFilter,
      u ∈ (tradeArticlesOf page).map ArticleSummary.url) ∧
    List.Pairwise (fun a b => firstIdx a (urlScan page) < firstIdx b (urlScan page))
      ((tradeArticlesOf page).map ArticleSummary.url) := by
  rw [tradeArticles_urls]
  refine ⟨uniqPart_nodup _ _, ?_, ?_, ?_, ?_⟩
  · intro u hu
    have hfl : u ∈ (urlScan page).filter urlFilter :=
      ((uniqPart_mem _ _ _).1 hu).1
    have hsc : u ∈ urlScan page := (List.mem_filter.1 hfl).1
    obtain ⟨u', run, c, w, -, hm, hrun, hch, -⟩ :=
      usFuel_spec page.length page u hsc
    refine ⟨run, ?_, hrun, hch⟩
    rw [hm]
    rfl
  · intro u hu
    have hfl : u ∈ (urlScan page).filter urlFilter :=
      ((uniqPart_mem _ _ _).1 hu).1
    have hflt : urlFilter u = true := (List.mem_filter.1 hfl).2
    rw [urlFilter] at hflt
    simp only [Bool.and_eq_true, Bool.not_eq_true'] at hflt
    intro hinf
    rw [← containsSub_iff excludedSlug u] at hinf
    rw [hflt.2] at hinf
    exact Bool.false_ne_true hinf
  · intro u hu
    exact (uniqPart_mem _ _ _).2 ⟨hu, List.not_mem_nil u⟩
  · refine List.Pairwise.imp_of_mem ?_ (uniqPart_pairwise _ [])
    intro a b ha hb hab
    exact firstIdx_filter_lt (urlScan page) a b
      ((uniqPart_mem _ _ _).1 ha).1 ((uniqPart_mem _ _ _).1 hb).1 hab

theorem c2_index_invariants_witness :
    (∃ slug, postUrlLit ++ ['a'] = tradeCompanionUrl ++ "/p/".data ++ slug ∧
      slug ≠ [] ∧ ∀ x ∈ slug, isSlugStop x = false) ∧
    ¬ (excludedSlug <:+: (postUrlLit ++ ['a'])) :=
  ⟨(c2_index_invariants "\"https://tradecompanion.substack.com/p/a\" ".data).2.1
      (postUrlLit ++ ['a']) (by decide),
   (c2_index_invariants "\"https://tradecompanion.substack.com/p/a\" ".data).2.2.1
      (postUrlLit ++ ['a']) (by decide)⟩

/-- C3.  On any page where neither body-location strategy matches (no
`<div class=*body*>` match and no `<article>` match), the extraction still
produces a record whose content is exactly the literal failure string while
title and date are extracted as usual; body-extraction failure alone is
never fatal. -/
theorem c3_body_failure_placeholder (env : List Char → Option (List Char))
    (url page : List Char) (henv : env url = some page)
    (h1 : divBodySearch page = none)
    (h2 : searchFirst "<article".data "</article>".data page = none) :
    fetch_substack_article_text env url =
      some { title := titleOf page, author := authorName, date := dateOf page,
             content := failContent } := by
  rw [fetch_substack_article_text, henv, Option.map_some']
  rw [articleOfPage, bodyFragmentOf, h1, h2]
  rfl

theorem c3_body_failure_placeholder_witness :
    fetch_substack_article_text (fun _ => some "<h1>Title Here</h1>".data) [] =
      some { title := titleOf "<h1>Title Here</h1>".data, author := authorName,
             date := dateOf "<h1>Title Here</h1>".data, content := failContent } :=
  c3_body_failure_placeholder (fun _ => some "<h1>Title Here</h1>".data) []
    "<h1>Title Here</h1>".data rfl (by decide) (by decide)

/-- C7.  The locator's title is the cleaned inner content of the first
`<h1>` element (the sentinel `"Unknown Title"` when no `<h1>` opening is
present); the date is the first `datetime="…"` attribute value of a
`<time>` element (empty when no `<time>` opening is present).  A page
containing only `<h1>Title Here</h1>` yields title `"Title Here"` and a
null body fragment. -/
theorem c7_locator_title_date :
    (∀ u t v, ¬ ("<h1".data <:+: u) → '<' ∉ t →
      titleOf (u ++ "<h1>".data ++ t ++ "</h1>".data ++ v) = clean_html_text t) ∧
    (∀ page, ¬ ("<h1".data <:+: page) → titleOf page = unknownTitle) ∧
    (∀ u d w, ¬ ("<time".data <:+: u) → '"' ∉ d → d ≠ [] →
      dateOf (u ++ ("<time datetime=\"".data ++ (d ++ '"' :: w))) = d) ∧
    (∀ page, ¬ ("<time".data <:+: page) → dateOf page = []) ∧
    titleOf "<h1>Title Here</h1>".data = "Title Here".data ∧
    bodyFragmentOf "<h1>Title Here</h1>".data = none :=
  ⟨fun _ _ _ hu ht => titleOf_structured hu ht,
   fun _ h => titleOf_no_h1 h,
   fun _ _ _ hu hd hdn => dateOf_structured hu hd hdn,
   fun _ h => dateOf_no_time h,
   by decide, by decide⟩

theorem c7_locator_title_date_witness :
    titleOf ("<p>x</p>".data ++ "<h1>".data ++ "Title Here".data ++
        "</h1>".data ++ "<p>y</p>".data) = clean_html_text "Title Here".data ∧
      dateOf ("x ".data ++ ("<time datetime=\"".data ++
        ("2025-03-01".data ++ '"' :: " />".data))) = "2025-03-01".data ∧
      titleOf "no heading here".data = unknownTitle :=
  ⟨c7_locator_title_date.1 "<p>x</p>".data "Title Here".data "<p>y</p>".data
      (by decide) (by decide),
   c7_locator_title_date.2.2.1 "x ".data "2025-03-01".data " />".data
      (by decide) (by decide) (by decide),
   c7_locator_title_date.2.1 "no heading here".data (by decide)⟩

theorem tradeArticlesOf_cons {page u : List Char} {us : List (List Char)}
    (h : (urlScan page).filter urlFilter = u :: us) :
    tradeArticlesOf page = mkSummary u :: (uniqPart [u] us).map mkSummary := by
  rw [tradeArticlesOf, h, uniqAcc_eq, List.nil_append]
  rw [uniqPart, if_neg (List.not_mem_nil u)]
  rfl

/-- C4.  The top-level "get latest article" operation never raises: when the
index fetch fails or the scan yields zero URLs it returns the unavailability
message; when the scan yields at least one URL but fetching that article
fails it returns the "failed to fetch the latest article" message; otherwise
it returns the formatted article text — and every run lands in one of these
three outcomes. -/
theorem c4_get_latest_total (env : List Char → Option (List Char)) :
    (env tradeCompanionUrl = none →
      get_latest_trade_companion_adam_mancini_article env = msgUnavailable) ∧
    (∀ page, env tradeCompanionUrl = some page →
      (urlScan page).filter urlFilter = [] →
      get_latest_trade_companion_adam_mancini_article env = msgUnavailable) ∧
    (∀ page u us, env tradeCompanionUrl = some page →
      (urlScan page).filter urlFilter = u :: us → env u = none →
      get_latest_trade_companion_adam_mancini_article env = msgLatestFailed) ∧
    (∀ page u us apage, env tradeCompanionUrl = some page →
      (urlScan page).filter urlFilter = u :: us → env u = some apage →
      get_latest_trade_companion_adam_mancini_article env =
        formatArticle (articleOfPage apage) u) ∧
    (get_latest_trade_companion_adam_mancini_article env = msgUnavailable ∨
      get_latest_trade_companion_adam_mancini_article env = msgLatestFailed ∨
      ∃ d u, get_latest_trade_companion_adam_mancini_article env =
        formatArticle d u) := by
  refine ⟨?_, ?_, ?_, ?_, ?_⟩
  · intro h
    have hf : fetch_trade_companion_articles env = [] := by
      rw [fetch_trade_companion_articles, h]
    rw [get_latest_trade_companion_adam_mancini_article, hf]
  · intro page hp hflt
    have hf : fetch_trade_companion_articles env = [] := by
      rw [fetch_trade_companion_articles, hp]
      show tradeArticlesOf page = []
      rw [tradeArticlesOf, hflt]
      rfl
    rw [get_latest_trade_companion_adam_mancini_article, hf]
  · intro page u us hp hflt hu
    have hf : fetch_trade_companion_articles env =
        mkSummary u :: (uniqPart [u] us).map mkSummary := by
      rw [fetch_trade_companion_articles, hp]
      exact tradeArticlesOf_cons hflt
    rw [get_latest_trade_companion_adam_mancini_article, hf]
    have hurl : (mkSummary u).url = u := rfl
    simp only [hurl, fetch_substack_article_text, hu, Option.map_none']
    rfl
  · intro page u us apage hp hflt hu
    have hf : fetch_trade_companion_articles env =
        mkSummary u :: (uniqPart [u] us).map mkSummary := by
      rw [fetch_trade_companion_articles, hp]
      exact tradeArticlesOf_cons hflt
    rw [get_latest_trade_companion_adam_mancini_article, hf]
    have hurl : (mkSummary u).url = u := rfl
    simp only [hurl, fetch_substack_article_text, hu, Option.map_some']
    rfl
  · cases hf : fetch_trade_companion_articles env with
    | nil =>
      left
      rw [get_latest_trade_companion_adam_mancini_article, hf]
    | cons a rest =>
      cases hs : fetch_substack_article_text env a.url with
      | none =>
        right
        left
        rw [get_latest_trade_companion_adam_mancini_article, hf]
        show (fetch_substack_article_text env a.url).elim msgLatestFailed
          (fun d => formatArticle d a.url) = msgLatestFailed
        rw [hs]
        rfl
      | some d =>
        right
        right
        exact ⟨d, a.url, by
          rw [get_latest_trade_companion_adam_mancini_article, hf]
          show (fetch_substack_article_text env a.url).elim msgLatestFailed
            (fun d => formatArticle d a.url) = formatArticle d a.url
          rw [hs]
          rfl⟩

theorem c4_get_latest_total_witness :
    get_latest_trade_companion_adam_mancini_article (fun _ => none) =
        msgUnavailable ∧
      get_latest_trade_companion_adam_mancini_article
          (fun u => if u = tradeCompanionUrl
            then some "x \"https://tradecompanion.substack.com/p/a\" y".data
            else none) = msgLatestFailed ∧
      get_latest_trade_companion_adam_mancini_article
          (fun u => if u = tradeCompanionUrl
            then some "x \"https://tradecompanion.substack.com/p/a\" y".data
            else some "<h1>T</h1>".data) =
        formatArticle (articleOfPage "<h1>T</h1>".data) (postUrlLit ++ ['a']) :=
  ⟨(c4_get_latest_total (fun _ => none)).1 rfl,
   (c4_get_latest_total _).2.2.1
      "x \"https://tradecompanion.substack.com/p/a\" y".data
      (postUrlLit ++ ['a']) [] (by decide) (by decide) (by decide),
   (c4_get_latest_total _).2.2.2.1
      "x \"https://tradecompanion.substack.com/p/a\" y".data
      (postUrlLit ++ ['a']) [] "<h1>T</h1>".data (by decide) (by decide) (by decide)⟩

theorem okFrag_insert {es1 es2 : List Elem} {e : Elem} (h : okFrag (es1 ++ es2))
    (he : '<' ∉ e.txt) : okFrag (es1 ++ e :: es2) := by
  intro x hx
  rcases List.mem_append.1 hx with h1 | h1
  · exact h x (List.mem_append_left _ h1)
  · rcases List.mem_cons.1 h1 with rfl | h2
    · exact he
    · exact h x (List.mem_append_right _ h2)

theorem specBlocks_insert_empty_p (es1 es2 : List Elem) :
    specBlocks (es1 ++ ⟨Tag.p, []⟩ :: es2) = specBlocks (es1 ++ es2) := by
  have hclean : clean_html_text ([] : List Char) = [] := rfl
  simp [specBlocks, List.filter_append, List.filterMap_append, List.filter_cons,
    List.filterMap_cons, hclean]

theorem specBlocks_insert_empty_li (es1 es2 : List Elem) :
    specBlocks (es1 ++ ⟨Tag.li, []⟩ :: es2) = specBlocks (es1 ++ es2) := by
  have hclean : clean_html_text ([] : List Char) = [] := rfl
  simp [specBlocks, List.filter_append, List.filterMap_append, List.filter_cons,
    List.filterMap_cons, hclean]

/-- C8 counterexample.  `"<p>a<p></p>b</p>"` contains `<p></p>`, yet
removing that occurrence changes the block sequence (the occurrence lies
inside the span of the enclosing paragraph match and perturbs the lazy
close): the claim's "same block sequence as on the fragment without it"
fails. -/
theorem c8_empty_paragraph_cx :
    ("<p>a".data ++ "<p></p>".data ++ "b</p>".data = "<p>a<p></p>b</p>".data) ∧
      extractBlocks ("<p>a".data ++ "<p></p>".data ++ "b</p>".data) ≠
        extractBlocks ("<p>a".data ++ "b</p>".data) := by decide

/-- C8 (amended).  A `<p>` or `<li>` match whose inner content is empty
after cleaning produces no block: inserting an empty paragraph or list-item
element anywhere between sibling elements leaves the extracted block
sequence unchanged (the original claim's fragment-level phrasing fails only
when the `<p></p>` occurrence sits inside another match's span, as the
counterexample shows). -/
theorem c8_empty_blocks_dropped :
    (∀ es1 es2 : List Elem, okFrag (es1 ++ es2) →
      extractBlocks (renderFrag (es1 ++ ⟨Tag.p, []⟩ :: es2)) =
        extractBlocks (renderFrag (es1 ++ es2))) ∧
    (∀ es1 es2 : List Elem, okFrag (es1 ++ es2) →
      extractBlocks (renderFrag (es1 ++ ⟨Tag.li, []⟩ :: es2)) =
        extractBlocks (renderFrag (es1 ++ es2))) ∧
    extractBlocks "<h2>A</h2><p></p><p>B</p><li></li>".data =
      extractBlocks "<h2>A</h2><p>B</p>".data := by
  refine ⟨?_, ?_, by decide⟩
  · intro es1 es2 hok
    rw [extractBlocks_renderFrag _ (okFrag_insert hok (by decide)),
      extractBlocks_renderFrag _ hok, specBlocks_insert_empty_p]
  · intro es1 es2 hok
    rw [extractBlocks_renderFrag _ (okFrag_insert hok (by decide)),
      extractBlocks_renderFrag _ hok, specBlocks_insert_empty_li]

theorem c8_empty_blocks_dropped_witness :
    okFrag ([⟨Tag.p, "a".data⟩] ++ [⟨Tag.li, "b".data⟩]) ∧
      extractBlocks
          (renderFrag ([⟨Tag.p, "a".data⟩] ++ ⟨Tag.p, []⟩ :: [⟨Tag.li, "b".data⟩])) =
        extractBlocks (renderFrag ([⟨Tag.p, "a".data⟩] ++ [⟨Tag.li, "b".data⟩])) :=
  ⟨by rw [okFrag]; decide,
   c8_empty_blocks_dropped.1 [⟨Tag.p, "a".data⟩] [⟨Tag.li, "b".data⟩]
      (by rw [okFrag]; decide)⟩

/-- C9 counterexample.  `"<h2>a<h2></h2></h2>"` contains `<h2></h2>`, yet
no `"# "` heading block is emitted and the block count equals that of the
fragment without the occurrence: the enclosing `<h2>` match absorbs it. -/
theorem c9_empty_heading_cx :
    ("<h2>a".data ++ "<h2></h2>".data ++ "</h2>".data =
        "<h2>a<h2></h2></h2>".data) ∧
      ['#', ' '] ∉ extractBlocks ("<h2>a".data ++ "<h2></h2>".data ++ "</h2>".data) ∧
      (extractBlocks ("<h2>a".data ++ "<h2></h2>".data ++ "</h2>".data)).length =
        (extractBlocks ("<h2>a".data ++ "</h2>".data)).length := by decide

/-- C9 (amended).  Unlike paragraphs and list items, heading matches that
clean to the empty string are not dropped: an empty `<h2>` element in a
sibling-element document always contributes the block `"# "`, and appending
one as a sibling increases the block count by exactly one (the original
claim's fragment-level phrasing fails only when the `<h2></h2>` occurrence
sits inside another heading match's span, as the counterexample shows). -/
theorem c9_empty_heading_kept :
    (∀ es : List Elem, okFrag es → (⟨Tag.h2, []⟩ : Elem) ∈ es →
      ['#', ' '] ∈ extractBlocks (renderFrag es)) ∧
    (∀ es : List Elem, okFrag es →
      (extractBlocks (renderFrag (es ++ [⟨Tag.h2, []⟩]))).length =
        (extractBlocks (renderFrag es)).length + 1) ∧
    extractBlocks "<h2></h2>".data = ["# ".data] := by
  refine ⟨?_, ?_, by decide⟩
  · intro es hok hmem
    rw [extractBlocks_renderFrag _ hok]
    have hmf : hBlockOf 1 (⟨Tag.h2, []⟩ : Elem) ∈
        (es.filter (fun e => e.t == Tag.h2)).map (hBlockOf 1) :=
      List.mem_map_of_mem _ (List.mem_filter.2 ⟨hmem, by decide⟩)
    have hb : hBlockOf 1 (⟨Tag.h2, []⟩ : Elem) = ['#', ' '] := by decide
    rw [hb] at hmf
    simp only [specBlocks, List.mem_append]
    exact Or.inl (Or.inl (Or.inl (Or.inl (Or.inl (Or.inl hmf)))))
  · intro es hok
    have hok2 : okFrag (es ++ [⟨Tag.h2, []⟩]) := by
      intro x hx
      rcases List.mem_append.1 hx with h1 | h1
      · exact hok x h1
      · rw [List.mem_singleton.1 h1]
        simp
    rw [extractBlocks_renderFrag _ hok2, extractBlocks_renderFrag _ hok]
    simp [specBlocks, List.filter_append, List.filterMap_append,
      List.length_append]
    omega

theorem c9_empty_heading_kept_witness :
    okFrag [⟨Tag.p, "B".data⟩, ⟨Tag.h2, []⟩] ∧
      ['#', ' '] ∈ extractBlocks (renderFrag [⟨Tag.p, "B".data⟩, ⟨Tag.h2, []⟩]) ∧
      (extractBlocks (renderFrag ([⟨Tag.p, "B".data⟩] ++ [⟨Tag.h2, []⟩]))).length =
        (extractBlocks (renderFrag [⟨Tag.p, "B".data⟩])).length + 1 :=
  ⟨by rw [okFrag]; decide,
   c9_empty_heading_kept.1 [⟨Tag.p, "B".data⟩, ⟨Tag.h2, []⟩]
      (by rw [okFrag]; decide) (by decide),
   c9_empty_heading_kept.2.1 [⟨Tag.p, "B".data⟩] (by rw [okFrag]; decide)⟩

end SubstackReader
